import Mathlib

/- Verification of the Deutsch / Deutsch-Jozsa demonstration programs
   (deutschsAlgorithm.py and deutschJozsaAlgorithm.py).

   The programs build qiskit circuits out of five elementary operations
   (x, h, cx, mcx, barrier), so circuits are embedded as gate lists over
   natural-number qubit indices together with the qubit/clbit counts and the
   measurement plan.  The simulation backend is modelled by an unnormalised
   integer-amplitude semantics of those five gates: every gate the programs
   use maps integer amplitude vectors to integer amplitude vectors (Hadamard
   is taken without its 1/sqrt 2 factor, which rescales all probabilities by
   the same factor and so leaves the Born-rule support unchanged).  A readout
   string is a possible single-shot sample exactly when some amplitude
   consistent with it is nonzero. -/

namespace DJSim

/-- Elementary operations appearing in the two source files: single-qubit
flip (`x`), Hadamard (`h`), controlled flip (`cx`), multi-controlled flip
(`mcx`) and the no-op `barrier`.  Qubit indices are plain naturals, as in
the source. -/
inductive Gate where
  | x (q : ℕ)
  | h (q : ℕ)
  | cx (c t : ℕ)
  | mcx (ctrls : List ℕ) (t : ℕ)
  | barrier
deriving DecidableEq

/-- A circuit in the style of qiskit's `QuantumCircuit`: qubit count,
classical-bit count, ordered gate list, and the measurement plan as
(qubit, classical bit) pairs. -/
structure Circuit where
  num_qubits : ℕ
  num_clbits : ℕ
  gates : List Gate
  measurements : List (ℕ × ℕ)
deriving DecidableEq

/-- Computational-basis states of an (n+1)-qubit register: qubits 0..n-1 are
the input lines, qubit n is the output line. -/
abbrev Basis (n : ℕ) := Fin (n + 1) → Bool

/-- Unnormalised integer amplitude vectors over the computational basis. -/
abbrev QState (n : ℕ) := Basis n → ℤ

/-- Interpret a natural-number qubit index on an (n+1)-qubit register. -/
def natQ (n q : ℕ) : Option (Fin (n + 1)) :=
  if h : q < n + 1 then some ⟨q, h⟩ else none

/-- Flip qubit `q` of a basis state (identity when `q` is out of range). -/
def flipNat (n q : ℕ) (v : Basis n) : Basis n :=
  match natQ n q with
  | some i => Function.update v i (!(v i))
  | none => v

/-- Read qubit `q` of a basis state (`false` when `q` is out of range). -/
def readNat (n : ℕ) (v : Basis n) (q : ℕ) : Bool :=
  match natQ n q with
  | some i => v i
  | none => false

/-- Overwrite qubit `q` of a basis state (identity when out of range). -/
def updN (n q : ℕ) (c : Bool) (v : Basis n) : Basis n :=
  match natQ n q with
  | some i => Function.update v i c
  | none => v

/-- Semantics of a multi-controlled flip: flip the target iff every control
qubit reads 1. -/
def mcxFun (n : ℕ) (ctrls : List ℕ) (t : ℕ) (v : Basis n) : Basis n :=
  if ctrls.all (readNat n v) then flipNat n t v else v

/-- The basis-state permutation implemented by a classical (non-Hadamard)
gate; each such permutation used by the programs is an involution.  The `h`
clause is a placeholder that is never used on Hadamard gates. -/
def gateFun (n : ℕ) : Gate → Basis n → Basis n
  | .x q => flipNat n q
  | .cx c t => mcxFun n [c] t
  | .mcx cs t => mcxFun n cs t
  | .barrier => id
  | .h _ => id

/-- Action of one gate on an unnormalised amplitude vector.  Classical gates
permute basis amplitudes; Hadamard acts as the unnormalised 2x2 transform
(|0> -> |0>+|1>, |1> -> |0>-|1>). -/
def applyGate (n : ℕ) : Gate → QState n → QState n
  | .h q, ψ =>
    match natQ n q with
    | some i => fun v =>
        ψ (Function.update v i false) + (if v i then -1 else 1) * ψ (Function.update v i true)
    | none => ψ
  | .x q, ψ => fun v => ψ (flipNat n q v)
  | .cx c t, ψ => fun v => ψ (mcxFun n [c] t v)
  | .mcx cs t, ψ => fun v => ψ (mcxFun n cs t v)
  | .barrier, ψ => ψ

/-- Run a gate list left to right on an amplitude vector. -/
def applyGates (n : ℕ) (gs : List Gate) (ψ : QState n) : QState n :=
  gs.foldl (fun φ g => applyGate n g φ) ψ

/-- The basis permutation through which a list of classical gates acts on
amplitudes: `applyGates gs ψ v = ψ (backComp gs v)`. -/
def backComp (n : ℕ) : List Gate → Basis n → Basis n
  | [] => id
  | g :: gs => gateFun n g ∘ backComp n gs

/-- Forward evaluation of a classical gate list on a basis state (the state a
delta input is carried to). -/
def forwardEval (n : ℕ) (gs : List Gate) (v : Basis n) : Basis n :=
  gs.foldl (fun w g => gateFun n g w) v

/-- The all-zero initial state |0...0> as a delta amplitude vector. -/
def initState (n : ℕ) : QState n := fun v => if v = fun _ => false then 1 else 0

/-- Final amplitude vector of a circuit started in |0...0>. -/
def circuitAmp (n : ℕ) (gs : List Gate) : QState n := applyGates n gs (initState n)

/-- Born-rule support of a single-shot readout of the n input lines: outcome
`m` can be sampled iff some amplitude consistent with `m` is nonzero. -/
abbrev possibleOutcome (n : ℕ) (gs : List Gate) (m : Fin n → Bool) : Prop :=
  ∃ b : Bool, circuitAmp n gs (Fin.snoc m b) ≠ 0

/-- Product (unentangled) amplitude vectors, one integer 2-vector per qubit. -/
def prodState (n : ℕ) (F : Fin (n + 1) → Bool → ℤ) : QState n := fun v => ∏ q, F q (v q)

/-- Unnormalised Hadamard transform of a per-qubit 2-vector. -/
def hTrans (c : Bool → ℤ) : Bool → ℤ :=
  fun b => if b then c false - c true else c false + c true

/-- Sum of an amplitude vector over all assignments to the listed qubits,
holding the remaining qubits at their values in `v`. -/
def sumOverN (n : ℕ) : List ℕ → QState n → Basis n → ℤ
  | [], ψ, v => ψ v
  | q :: L, ψ, v => sumOverN n L ψ (updN n q false v) + sumOverN n L ψ (updN n q true v)

/-- A gate is classical when it permutes basis states (everything but `h`). -/
def isClassicalGate : Gate → Bool
  | .h _ => false
  | _ => true

/-- Well-formedness of a gate on an (n+1)-qubit register, as qiskit enforces
it: Hadamards act on existing qubits and controls never contain the target.
All gates emitted by the programs satisfy it. -/
def gateOk (n : ℕ) : Gate → Prop
  | .h q => q < n + 1
  | .cx c t => c ≠ t
  | .mcx cs t => t ∉ cs
  | .x _ => True
  | .barrier => True

/-- Fuel-driven computation of the binary length of a natural number (the
fuel argument makes the recursion structural, so the kernel can evaluate
it); `bitLen` below instantiates the fuel so that it never runs out. -/
def bitLenAux : ℕ → ℕ → ℕ
  | 0, _ => 0
  | fuel + 1, n => if n = 0 then 0 else bitLenAux fuel (n / 2) + 1

/-- Number of binary digits of `n` (0 for 0); equal to `Nat.size`. -/
def bitLen (n : ℕ) : ℕ := bitLenAux n n

/-- Python's f-string `f"{s:0b}"`: the minimal binary representation of `s`
(no leading zeros, "0" for 0), most significant bit first. -/
def pyBin (s : ℕ) : List Char :=
  if s = 0 then ['0']
  else ((List.range (bitLen s)).reverse).map (fun i => if s.testBit i then '1' else '0')

/-- The binary representation of `s` left-padded with zeros to width
`width`, as Python's `f"{s:0{width}b}"` would produce for `s < 2^width`. -/
def padBin (width s : ℕ) : List Char :=
  List.replicate (width - (pyBin s).length) '0' ++ pyBin s

/-- add_cx from deutschJozsaAlgorithm.py: `for qubit, bit in
enumerate(reversed(bit_string)): if bit == "1": qc.x(qubit)`, then return the
extended circuit. -/
def add_cx (qc : List Gate) (bit_string : List Char) : List Gate :=
  qc ++ bit_string.reverse.enum.filterMap
    (fun p => if p.2 = '1' then some (Gate.x p.1) else none)

/-- One on-state block of dj_function's balanced branch: barrier, X layer
from `add_cx`, mcx over all input lines targeting the output line, X layer
again. -/
def djTriple (num_qubits s : ℕ) : List Gate :=
  [Gate.barrier] ++ add_cx [] (pyBin s) ++
    [Gate.mcx (List.range num_qubits) num_qubits] ++ add_cx [] (pyBin s)

/-- dj_function from deutschJozsaAlgorithm.py with its random draws made
explicit parameters: `flip` is the 50% output-qubit flip, `constant` the 50%
class choice, and `on_states` the sample
`np.random.choice(range(2**num_qubits), 2**num_qubits // 2, replace=False)`
(so a run of the program guarantees `on_states` has distinct members drawn
from `range(2**num_qubits)` and length `2**num_qubits // 2`). -/
def dj_function (num_qubits : ℕ) (flip constant : Bool) (on_states : List ℕ) : Circuit :=
  { num_qubits := num_qubits + 1
    num_clbits := 0
    gates :=
      (if flip then [Gate.x num_qubits] else []) ++
      (if constant then []
       else ((on_states.map (djTriple num_qubits)).flatten ++ [Gate.barrier]))
    measurements := [] }

/-- dj_function never raises: the source performs no validation of
`num_qubits` whatsoever (there is no n >= 1 check), so the construction
always succeeds.  The `Except` layer exists to make the spec's claimed
INVALID_PARAMETER failure statable. -/
def dj_function_run (num_qubits : ℕ) (flip constant : Bool) (on_states : List ℕ) :
    Except String Circuit :=
  .ok (dj_function num_qubits flip constant on_states)

/-- compile_circuit from deutschJozsaAlgorithm.py: n = num_qubits - 1; a
fresh circuit with n+1 qubits and n classical bits; x on qubit n; h on
qubits 0..n; the oracle's gates; h on qubits 0..n-1; measure qubits 0..n-1
into classical bits 0..n-1. -/
def compile_circuit (function : Circuit) : Circuit :=
  { num_qubits := function.num_qubits - 1 + 1
    num_clbits := function.num_qubits - 1
    gates :=
      [Gate.x (function.num_qubits - 1)] ++
      (List.range (function.num_qubits - 1 + 1)).map Gate.h ++
      function.gates ++
      (List.range (function.num_qubits - 1)).map Gate.h
    measurements := (List.range (function.num_qubits - 1)).map (fun i => (i, i)) }

/-- compile_circuit from deutschsAlgorithm.py: identical protocol except that
a barrier is placed on each side of the oracle query. -/
def deutsch_compile_circuit (function : Circuit) : Circuit :=
  { num_qubits := function.num_qubits - 1 + 1
    num_clbits := function.num_qubits - 1
    gates :=
      [Gate.x (function.num_qubits - 1)] ++
      (List.range (function.num_qubits - 1 + 1)).map Gate.h ++
      [Gate.barrier] ++ function.gates ++ [Gate.barrier] ++
      (List.range (function.num_qubits - 1)).map Gate.h
    measurements := (List.range (function.num_qubits - 1)).map (fun i => (i, i)) }

/-- deutsch_function from deutschsAlgorithm.py: raises ValueError when the
case selector is outside [1, 2, 3, 4], otherwise builds the 2-qubit oracle
for the selected one of the four 1-bit functions. -/
def deutsch_function (case_num : ℕ) : Except String Circuit :=
  if case_num ∉ ([1, 2, 3, 4] : List ℕ) then
    .error "case must be 1, 2, 3, or 4."
  else
    .ok { num_qubits := 2
          num_clbits := 0
          gates :=
            (if case_num = 2 then [Gate.cx 0 1] else []) ++
            (if case_num = 3 then [Gate.cx 0 1, Gate.x 1] else []) ++
            (if case_num = 4 then [Gate.x 1] else [])
          measurements := [] }

/-- Decision rule of dj_algorithm applied to the sampled memory string: the
readout of the n classical bits is rendered as a character string (most
significant clbit first, as qiskit prints it) and the verdict is "balanced"
iff the character '1' occurs in it. -/
def dj_algorithm_decision (n : ℕ) (m : Fin n → Bool) : String :=
  if '1' ∈ (List.finRange n).reverse.map (fun i => if m i then '1' else '0')
  then "balanced" else "constant"

/-- dj_algorithm from deutschJozsaAlgorithm.py, given the single-shot sample
`m` the backend returns: compile the oracle, run it, and map the sampled
string to a verdict.  The source contains no validation and can raise no
error before invoking the backend; the `Except` layer exists to make the
spec's claimed INVALID_ORACLE failure statable. -/
def dj_algorithm_run (function : Circuit) (m : Fin (function.num_qubits - 1) → Bool) :
    Except String String :=
  .ok (dj_algorithm_decision (function.num_qubits - 1) m)

/-- Remove the no-op barriers from a gate list. -/
def eraseBarriers (gs : List Gate) : List Gate :=
  gs.filter (fun g => g ≠ Gate.barrier)

/-- The n-bit input pattern whose bits are the complements of the binary
digits of `s`. -/
def complPattern (n s : ℕ) : Fin n → Bool := fun i => !(s.testBit i.val)

/-- The n-bit input pattern given by the binary digits of `s`. -/
def bitsOf (n s : ℕ) : Fin n → Bool := fun i => s.testBit i.val

/-- Whether some chosen on-state's complement pattern equals `x`. -/
def onMember (n : ℕ) (on_states : List ℕ) (x : Fin n → Bool) : Bool :=
  on_states.any (fun s => decide (x = complPattern n s))

/-- The boolean function the generated oracle actually computes on the output
line (derived below from the gate semantics): the optional global flip XORed
with membership of the input in the set of complemented on-state patterns. -/
def oracleFun (n : ℕ) (flip constant : Bool) (on_states : List ℕ) (x : Fin n → Bool) : Bool :=
  xor (if constant then false else onMember n on_states x) flip

/-- Classical query of an oracle circuit: prepare the input lines in the
basis state `x` with the output line at 0, apply the oracle's gates once,
and read the output line. -/
def oracleOutput (n : ℕ) (gs : List Gate) (x : Fin n → Bool) : Bool :=
  forwardEval n gs (Fin.snoc x false) (Fin.last n)

/-- One classical query as dj_classical_algorithm performs it: a fresh
(n+1)-qubit circuit prepared in `state` by add_cx on the unpadded binary
string, composed with the oracle, measuring qubit n. -/
def classicalQuery (function : Circuit) (state : ℕ) : Bool :=
  readNat (function.num_qubits - 1)
    (forwardEval (function.num_qubits - 1)
      (add_cx [] (pyBin state) ++ function.gates)
      (fun _ => false))
    (function.num_qubits - 1)

/-- The query loop of dj_classical_algorithm: walk the candidate states,
count queries, record outputs, and return ("balanced", count) as soon as a
new output is absent from the record; the for-else fallthrough returns
("constant", count). -/
def djLoop (g : ℕ → Bool) : List ℕ → List Bool → ℕ → String × ℕ
  | [], _outputs, num_queries => ("constant", num_queries)
  | state :: rest, outputs, num_queries =>
    if outputs ≠ [] ∧ g state ∉ outputs then ("balanced", num_queries + 1)
    else djLoop g rest (outputs ++ [g state]) (num_queries + 1)

/-- dj_classical_algorithm from deutschJozsaAlgorithm.py: try the inputs
0, 1, ..., 2^(n-1) in order. -/
def dj_classical_algorithm (function : Circuit) : String × ℕ :=
  djLoop (classicalQuery function)
    (List.range (2 ^ (function.num_qubits - 1 - 1) + 1)) [] 0

end DJSim

namespace DJSim

theorem applyGates_nil (n : ℕ) (ψ : QState n) : applyGates n [] ψ = ψ := rfl

theorem applyGates_cons (n : ℕ) (g : Gate) (gs : List Gate) (ψ : QState n) :
    applyGates n (g :: gs) ψ = applyGates n gs (applyGate n g ψ) := rfl

theorem applyGates_append (n : ℕ) (l₁ l₂ : List Gate) (ψ : QState n) :
    applyGates n (l₁ ++ l₂) ψ = applyGates n l₂ (applyGates n l₁ ψ) := by
  simp [applyGates, List.foldl_append]

theorem applyGate_classical (n : ℕ) {g : Gate} (hg : isClassicalGate g = true) (ψ : QState n) :
    applyGate n g ψ = fun v => ψ (gateFun n g v) := by
  cases g with
  | h q => simp [isClassicalGate] at hg
  | x q => rfl
  | cx c t => rfl
  | mcx cs t => rfl
  | barrier => rfl

theorem applyGates_classical (n : ℕ) {gs : List Gate}
    (h : ∀ g ∈ gs, isClassicalGate g = true) (ψ : QState n) :
    applyGates n gs ψ = fun v => ψ (backComp n gs v) := by
  induction gs generalizing ψ with
  | nil => rfl
  | cons g gs ih =>
    rw [applyGates_cons, ih (fun g' hg' => h g' (List.mem_cons_of_mem _ hg')),
      applyGate_classical n (h g (List.mem_cons_self _ _))]
    rfl

theorem flipNat_invol (n q : ℕ) (v : Basis n) : flipNat n q (flipNat n q v) = v := by
  by_cases hq : q < n + 1
  · simp [flipNat, natQ, hq, Function.update_idem, Function.update_same,
      Function.update_eq_self]
  · simp [flipNat, natQ, hq]

theorem readNat_flipNat (n : ℕ) {c t : ℕ} (hct : c ≠ t) (v : Basis n) :
    readNat n (flipNat n t v) c = readNat n v c := by
  by_cases hc : c < n + 1 <;> by_cases ht : t < n + 1 <;>
    simp [readNat, flipNat, natQ, hc, ht]
  exact Function.update_noteq (Fin.ne_of_val_ne hct) _ _

theorem mcxFun_invol (n : ℕ) {cs : List ℕ} {t : ℕ} (ht : t ∉ cs) (v : Basis n) :
    mcxFun n cs t (mcxFun n cs t v) = v := by
  unfold mcxFun
  by_cases hc : cs.all (readNat n v) = true
  · rw [if_pos hc]
    have h2 : cs.all (readNat n (flipNat n t v)) = true := by
      rw [List.all_eq_true] at hc ⊢
      intro c hcm
      rw [readNat_flipNat n (fun hct => ht (by rw [← hct]; exact hcm)) v]
      exact hc c hcm
    rw [if_pos h2, flipNat_invol]
  · rw [if_neg hc, if_neg hc]

theorem gateFun_invol (n : ℕ) {g : Gate} (hok : gateOk n g) (hcl : isClassicalGate g = true)
    (v : Basis n) : gateFun n g (gateFun n g v) = v := by
  cases g with
  | h q => simp [isClassicalGate] at hcl
  | x q => exact flipNat_invol n q v
  | cx c t =>
    refine mcxFun_invol n (fun hmem => ?_) v
    exact hok (List.mem_singleton.mp hmem).symm
  | mcx cs t => exact mcxFun_invol n hok v
  | barrier => rfl

theorem forwardEval_nil (n : ℕ) (v : Basis n) : forwardEval n [] v = v := rfl

theorem forwardEval_cons (n : ℕ) (g : Gate) (gs : List Gate) (v : Basis n) :
    forwardEval n (g :: gs) v = forwardEval n gs (gateFun n g v) := rfl

theorem forwardEval_append (n : ℕ) (l₁ l₂ : List Gate) (v : Basis n) :
    forwardEval n (l₁ ++ l₂) v = forwardEval n l₂ (forwardEval n l₁ v) := by
  simp [forwardEval, List.foldl_append]

theorem backComp_append (n : ℕ) (l₁ l₂ : List Gate) (v : Basis n) :
    backComp n (l₁ ++ l₂) v = backComp n l₁ (backComp n l₂ v) := by
  induction l₁ with
  | nil => rfl
  | cons g gs ih => simp [backComp, ih]

theorem backComp_forwardEval (n : ℕ) {gs : List Gate}
    (h : ∀ g ∈ gs, gateOk n g ∧ isClassicalGate g = true) (v : Basis n) :
    backComp n gs (forwardEval n gs v) = v := by
  induction gs generalizing v with
  | nil => rfl
  | cons g gs ih =>
    have hg := h g (List.mem_cons_self _ _)
    rw [forwardEval_cons]
    show gateFun n g (backComp n gs (forwardEval n gs (gateFun n g v))) = v
    rw [ih (fun g' hg' => h g' (List.mem_cons_of_mem _ hg')), gateFun_invol n hg.1 hg.2]

theorem update_snoc_last (n : ℕ) (x : Fin n → Bool) (b c : Bool) :
    Function.update (Fin.snoc x b : Basis n) (Fin.last n) c = Fin.snoc x c := by
  funext q
  refine Fin.lastCases ?_ (fun i => ?_) q
  · rw [Function.update_same, Fin.snoc_last]
  · rw [Function.update_noteq (Fin.castSucc_lt_last i).ne _ _, Fin.snoc_castSucc,
      Fin.snoc_castSucc]

end DJSim

namespace DJSim

theorem prodState_split (n : ℕ) (F : Fin (n + 1) → Bool → ℤ) (v : Basis n) (i : Fin (n + 1)) :
    prodState n F v = F i (v i) * ∏ q ∈ Finset.univ.erase i, F q (v q) :=
  (Finset.mul_prod_erase _ _ (Finset.mem_univ i)).symm

theorem prod_erase_update (n : ℕ) (F : Fin (n + 1) → Bool → ℤ) (i : Fin (n + 1))
    (c : Bool → ℤ) (v : Basis n) :
    ∏ q ∈ Finset.univ.erase i, (Function.update F i c) q (v q) =
      ∏ q ∈ Finset.univ.erase i, F q (v q) :=
  Finset.prod_congr rfl fun q hq => by
    rw [Function.update_noteq (Finset.ne_of_mem_erase hq)]

theorem prod_erase_update_point (n : ℕ) (F : Fin (n + 1) → Bool → ℤ) (i : Fin (n + 1))
    (c : Bool) (v : Basis n) :
    ∏ q ∈ Finset.univ.erase i, F q ((Function.update v i c) q) =
      ∏ q ∈ Finset.univ.erase i, F q (v q) :=
  Finset.prod_congr rfl fun q hq => by
    rw [Function.update_noteq (Finset.ne_of_mem_erase hq)]

theorem applyGate_h_eq (n q : ℕ) (hq : q < n + 1) (ψ : QState n) :
    applyGate n (Gate.h q) ψ = fun v =>
      ψ (Function.update v ⟨q, hq⟩ false) +
        (if v ⟨q, hq⟩ then -1 else 1) * ψ (Function.update v ⟨q, hq⟩ true) := by
  simp [applyGate, natQ, hq]

theorem applyX_prodState (n q : ℕ) (hq : q < n + 1) (F : Fin (n + 1) → Bool → ℤ) :
    applyGate n (Gate.x q) (prodState n F) =
      prodState n (Function.update F ⟨q, hq⟩ (fun b => F ⟨q, hq⟩ (!b))) := by
  funext v
  show prodState n F (flipNat n q v) = _
  have hflip : flipNat n q v = Function.update v ⟨q, hq⟩ (!(v ⟨q, hq⟩)) := by
    simp [flipNat, natQ, hq]
  rw [hflip, prodState_split n F _ ⟨q, hq⟩, prodState_split n _ v ⟨q, hq⟩,
    Function.update_same, Function.update_same, prod_erase_update,
    prod_erase_update_point]

theorem applyH_prodState (n q : ℕ) (hq : q < n + 1) (F : Fin (n + 1) → Bool → ℤ) :
    applyGate n (Gate.h q) (prodState n F) =
      prodState n (Function.update F ⟨q, hq⟩ (hTrans (F ⟨q, hq⟩))) := by
  funext v
  have h1 : applyGate n (Gate.h q) (prodState n F) v =
      prodState n F (Function.update v ⟨q, hq⟩ false) +
        (if v ⟨q, hq⟩ then -1 else 1) * prodState n F (Function.update v ⟨q, hq⟩ true) := by
    rw [applyGate_h_eq n q hq]
  rw [h1]
  rw [prodState_split n F (Function.update v ⟨q, hq⟩ false) ⟨q, hq⟩,
    prodState_split n F (Function.update v ⟨q, hq⟩ true) ⟨q, hq⟩,
    prodState_split n _ v ⟨q, hq⟩, Function.update_same, Function.update_same,
    Function.update_same, prod_erase_update, prod_erase_update_point,
    prod_erase_update_point]
  cases hvi : v ⟨q, hq⟩ <;> simp [hTrans] <;> ring

theorem hLayer_prodState (n : ℕ) (F : Fin (n + 1) → Bool → ℤ) :
    ∀ k, k ≤ n + 1 →
      applyGates n ((List.range k).map Gate.h) (prodState n F) =
        prodState n (fun q => if q.val < k then hTrans (F q) else F q) := by
  intro k
  induction k with
  | zero =>
    intro _
    rw [List.range_zero, List.map_nil, applyGates_nil]
    refine congrArg (prodState n) (funext fun q => ?_)
    simp
  | succ k ih =>
    intro hk
    have hkn : k < n + 1 := hk
    rw [List.range_succ, List.map_append, applyGates_append, ih (le_of_lt hkn),
      show List.map Gate.h [k] = [Gate.h k] from rfl, applyGates_cons, applyGates_nil,
      applyH_prodState n k hkn]
    refine congrArg (prodState n) (funext fun q => ?_)
    by_cases hqk : q = (⟨k, hkn⟩ : Fin (n + 1))
    · subst hqk
      rw [Function.update_same]
      simp
    · rw [Function.update_noteq hqk]
      have hv : q.val ≠ k := fun hv => hqk (Fin.ext hv)
      by_cases hlt : q.val < k
      · simp [hlt, Nat.lt_succ_of_lt hlt]
      · have hnlt : ¬ q.val < k + 1 := by omega
        simp [hlt, hnlt]

theorem initState_eq_prodState (n : ℕ) :
    initState n = prodState n (fun _ b => if b then 0 else 1) := by
  funext v
  unfold initState prodState
  by_cases hv : v = fun _ => false
  · subst hv
    simp
  · rw [if_neg hv]
    have hex : ∃ q, v q = true := by
      by_contra hall
      push_neg at hall
      exact hv (funext fun q => by
        have := hall q
        exact Bool.eq_false_iff.mpr this)
    obtain ⟨q, hq⟩ := hex
    exact (Finset.prod_eq_zero (Finset.mem_univ q) (by simp [hq])).symm

theorem firstPart_eval (n : ℕ) :
    applyGates n ([Gate.x n] ++ (List.range (n + 1)).map Gate.h) (initState n) =
      fun v => if v (Fin.last n) then -1 else 1 := by
  rw [applyGates_append, applyGates_cons, applyGates_nil, initState_eq_prodState,
    applyX_prodState n n (Nat.lt_succ_self n), hLayer_prodState n _ (n + 1) le_rfl]
  have hlast : (⟨n, Nat.lt_succ_self n⟩ : Fin (n + 1)) = Fin.last n := rfl
  have hG : (fun q : Fin (n + 1) =>
      if q.val < n + 1 then
        hTrans ((Function.update (fun (_ : Fin (n + 1)) (b : Bool) => if b then (0 : ℤ) else 1)
          ⟨n, Nat.lt_succ_self n⟩ (fun b => if !b then (0 : ℤ) else 1)) q)
      else (Function.update (fun (_ : Fin (n + 1)) (b : Bool) => if b then (0 : ℤ) else 1)
          ⟨n, Nat.lt_succ_self n⟩ (fun b => if !b then (0 : ℤ) else 1)) q) =
      fun q => if q = Fin.last n then (fun b => if b then (-1 : ℤ) else 1)
        else (fun _ => (1 : ℤ)) := by
    funext q
    rw [if_pos q.isLt]
    by_cases hql : q = Fin.last n
    · subst hql
      rw [← hlast, Function.update_same, if_pos rfl]
      funext b
      cases b <;> simp [hTrans]
    · rw [Function.update_noteq (by rw [hlast]; exact hql), if_neg hql]
      funext b
      cases b <;> simp [hTrans]
  rw [hG]
  funext v
  rw [prodState_split n _ v (Fin.last n), if_pos rfl]
  have hone : ∏ q ∈ Finset.univ.erase (Fin.last n),
      (fun q : Fin (n + 1) => if q = Fin.last n then (fun b => if b then (-1 : ℤ) else 1)
        else (fun _ => (1 : ℤ))) q (v q) = 1 :=
    Finset.prod_eq_one fun q hq => by
      simp [Finset.ne_of_mem_erase hq]
  rw [hone, mul_one]

end DJSim

namespace DJSim

theorem size_of_ne_zero {n : ℕ} (h : n ≠ 0) : Nat.size n = Nat.size (n / 2) + 1 := by
  conv_lhs => rw [← Nat.bit_decomp n]
  rw [Nat.size_bit (by rw [Nat.bit_decomp]; exact h), Nat.div2_val]

theorem bitLenAux_eq_size : ∀ fuel n, n ≤ fuel → bitLenAux fuel n = Nat.size n := by
  intro fuel
  induction fuel with
  | zero =>
    intro n hn
    obtain rfl : n = 0 := by omega
    simp [bitLenAux]
  | succ fuel ih =>
    intro n hn
    by_cases h0 : n = 0
    · subst h0
      simp [bitLenAux]
    · rw [show bitLenAux (fuel + 1) n = bitLenAux fuel (n / 2) + 1 from by
        simp [bitLenAux, h0]]
      rw [ih (n / 2) (by omega), ← size_of_ne_zero h0]

theorem bitLen_eq_size (n : ℕ) : bitLen n = Nat.size n := bitLenAux_eq_size n n le_rfl

theorem zip_range_map {α : Type} (f : ℕ → α) (m : ℕ) :
    (List.range m).zip ((List.range m).map f) = (List.range m).map (fun i => (i, f i)) := by
  induction m with
  | zero => rfl
  | succ m ih =>
    rw [List.range_succ, List.map_append, List.zip_append (by simp), ih, List.map_append]
    rfl

theorem add_cx_pyBin (s : ℕ) :
    add_cx [] (pyBin s) =
      (List.range (Nat.size s)).filterMap
        (fun i => if s.testBit i then some (Gate.x i) else none) := by
  by_cases hs : s = 0
  · subst hs
    rw [Nat.size_zero]
    decide
  · have h1 : (pyBin s).reverse =
        (List.range (Nat.size s)).map (fun i => if s.testBit i then '1' else '0') := by
      rw [pyBin, if_neg hs, bitLen_eq_size, List.map_reverse, List.reverse_reverse]
    show [] ++ (pyBin s).reverse.enum.filterMap _ = _
    rw [List.nil_append, h1, List.enum_eq_zip_range, List.length_map, List.length_range,
      zip_range_map, List.filterMap_map]
    have h2 : ((fun pr : ℕ × Char => if pr.2 = '1' then some (Gate.x pr.1) else none) ∘
        (fun i => (i, if s.testBit i then '1' else '0'))) =
        fun i => if s.testBit i then some (Gate.x i) else none := by
      funext i
      by_cases hb : s.testBit i <;> simp [hb]
    rw [h2]

theorem mem_add_cx_pyBin (s i : ℕ) :
    Gate.x i ∈ add_cx [] (pyBin s) ↔ s.testBit i = true := by
  rw [add_cx_pyBin, List.mem_filterMap]
  constructor
  · rintro ⟨j, _, hjeq⟩
    by_cases hb : s.testBit j
    · rw [if_pos hb] at hjeq
      obtain rfl : j = i := by
        have := Option.some.inj hjeq
        cases this
        rfl
      exact hb
    · rw [if_neg hb] at hjeq
      cases hjeq
  · intro hb
    exact ⟨i, List.mem_range.mpr (Nat.lt_size.mpr (Nat.testBit_implies_ge hb)),
      by rw [if_pos hb]⟩

theorem add_cx_only_x (bits : List Char) (g : Gate) (hg : g ∈ add_cx [] bits) :
    ∃ i, g = Gate.x i := by
  unfold add_cx at hg
  rw [List.nil_append, List.mem_filterMap] at hg
  obtain ⟨p, _, hp⟩ := hg
  by_cases hc : p.2 = '1'
  · rw [if_pos hc] at hp
    exact ⟨p.1, (Option.some.inj hp).symm⟩
  · rw [if_neg hc] at hp
    cases hp

theorem flipNat_comm (n a b : ℕ) (v : Basis n) :
    flipNat n a (flipNat n b v) = flipNat n b (flipNat n a v) := by
  by_cases hab : a = b
  · rw [hab]
  · by_cases ha : a < n + 1 <;> by_cases hb : b < n + 1 <;>
      simp only [flipNat, natQ, ha, hb, dif_pos, dif_neg, not_false_iff]
    have hne : (⟨a, ha⟩ : Fin (n + 1)) ≠ ⟨b, hb⟩ := Fin.ne_of_val_ne hab
    rw [Function.update_noteq hne, Function.update_noteq hne.symm,
      Function.update_comm hne]

theorem backComp_flipNat (n q0 : ℕ) {gs : List Gate}
    (hx : ∀ g ∈ gs, ∃ i, g = Gate.x i) (v : Basis n) :
    backComp n gs (flipNat n q0 v) = flipNat n q0 (backComp n gs v) := by
  induction gs with
  | nil => rfl
  | cons g gs ih =>
    obtain ⟨i, rfl⟩ := hx g (List.mem_cons_self _ _)
    show flipNat n i (backComp n gs (flipNat n q0 v)) =
      flipNat n q0 (flipNat n i (backComp n gs v))
    rw [ih (fun g' hg' => hx g' (List.mem_cons_of_mem _ hg')), flipNat_comm]

theorem forwardEval_eq_backComp_xonly (n : ℕ) {gs : List Gate}
    (hx : ∀ g ∈ gs, ∃ i, g = Gate.x i) (v : Basis n) :
    forwardEval n gs v = backComp n gs v := by
  induction gs generalizing v with
  | nil => rfl
  | cons g gs ih =>
    obtain ⟨i, rfl⟩ := hx g (List.mem_cons_self _ _)
    rw [forwardEval_cons]
    show forwardEval n gs (flipNat n i v) = flipNat n i (backComp n gs v)
    rw [ih (fun g' hg' => hx g' (List.mem_cons_of_mem _ hg')),
      backComp_flipNat n i (fun g' hg' => hx g' (List.mem_cons_of_mem _ hg'))]

theorem backComp_xmask (n s : ℕ) :
    ∀ m, m ≤ n + 1 → ∀ v : Basis n,
      backComp n ((List.range m).filterMap
        (fun i => if s.testBit i then some (Gate.x i) else none)) v =
        fun q => xor (v q) (decide (q.val < m) && s.testBit q.val) := by
  intro m
  induction m with
  | zero =>
    intro _ v
    funext q
    simp [backComp]
  | succ m ih =>
    intro hm v
    have hm' : m < n + 1 := hm
    rw [List.range_succ, List.filterMap_append, backComp_append]
    by_cases hb : s.testBit m
    · have hfm : List.filterMap (fun i => if s.testBit i then some (Gate.x i) else none)
          [m] = [Gate.x m] := by simp [hb]
      rw [hfm, show backComp n [Gate.x m] v = flipNat n m v from rfl, ih (by omega)]
      funext q
      by_cases hq : q = (⟨m, hm'⟩ : Fin (n + 1))
      · subst hq
        have hflip : flipNat n m v ⟨m, hm'⟩ = !(v ⟨m, hm'⟩) := by
          simp [flipNat, natQ, hm']
        rw [hflip]
        simp [hb]
      · have hqm : q.val ≠ m := fun h => hq (Fin.ext h)
        have hflip : flipNat n m v q = v q := by
          simp only [flipNat, natQ, hm', dif_pos]
          exact Function.update_noteq hq _ _
        rw [hflip]
        by_cases hlt : q.val < m
        · have hlt' : q.val < m + 1 := by omega
          simp [hlt, hlt']
        · have hnlt : ¬ q.val < m + 1 := by omega
          simp [hlt, hnlt]
    · have hfm : List.filterMap (fun i => if s.testBit i then some (Gate.x i) else none)
          [m] = [] := by simp [hb]
      rw [hfm, show backComp n ([] : List Gate) v = v from rfl, ih (by omega)]
      funext q
      by_cases hq : q.val = m
      · rw [hq]
        simp [hb]
      · by_cases hlt : q.val < m
        · have hlt' : q.val < m + 1 := by omega
          simp [hlt, hlt']
        · have hnlt : ¬ q.val < m + 1 := by omega
          simp [hlt, hnlt]

theorem backComp_add_cx (n s : ℕ) (hs : Nat.size s ≤ n + 1) (v : Basis n) :
    backComp n (add_cx [] (pyBin s)) v = fun q => xor (v q) (s.testBit q.val) := by
  rw [add_cx_pyBin, backComp_xmask n s (Nat.size s) hs v]
  funext q
  by_cases hb : s.testBit q.val
  · have hlt : q.val < Nat.size s := Nat.lt_size.mpr (Nat.testBit_implies_ge hb)
    simp [hb, hlt]
  · simp [hb]

theorem forwardEval_add_cx (n s : ℕ) (hs : Nat.size s ≤ n + 1) (v : Basis n) :
    forwardEval n (add_cx [] (pyBin s)) v = fun q => xor (v q) (s.testBit q.val) := by
  rw [forwardEval_eq_backComp_xonly n (add_cx_only_x (pyBin s)) v,
    backComp_add_cx n s hs v]

end DJSim

namespace DJSim

theorem readNat_snoc_lt (n : ℕ) (x : Fin n → Bool) (b : Bool) {c : ℕ} (hlt : c < n) :
    readNat n (Fin.snoc x b) c = x ⟨c, hlt⟩ := by
  have hlt' : c < n + 1 := by omega
  simp only [readNat, natQ, hlt', dif_pos]
  exact @Fin.snoc_castSucc n (fun _ => Bool) b x ⟨c, hlt⟩

theorem flipNat_snoc_last (n : ℕ) (x : Fin n → Bool) (b : Bool) :
    flipNat n n (Fin.snoc x b) = Fin.snoc x (!b) := by
  have hlt : n < n + 1 := Nat.lt_succ_self n
  simp only [flipNat, natQ, hlt, dif_pos]
  have hl : (⟨n, hlt⟩ : Fin (n + 1)) = Fin.last n := rfl
  rw [hl, Fin.snoc_last, update_snoc_last]

theorem backComp_singleton (n : ℕ) (g : Gate) (v : Basis n) :
    backComp n [g] v = gateFun n g v := rfl

theorem snoc_congr (n : ℕ) (x : Fin n → Bool) {b c : Bool} (h : b = c) :
    (Fin.snoc x b : Basis n) = Fin.snoc x c := by rw [h]

theorem mask_snoc (n s : ℕ) (hs : s < 2 ^ n) (x : Fin n → Bool) (b : Bool) :
    (fun q : Fin (n + 1) => xor ((Fin.snoc x b : Basis n) q) (s.testBit q.val)) =
      (Fin.snoc (fun i => xor (x i) (s.testBit i.val)) b : Basis n) := by
  funext q
  refine Fin.lastCases ?_ (fun i => ?_) q
  · rw [Fin.snoc_last, Fin.snoc_last]
    have hbit : s.testBit (Fin.last n).val = false := Nat.testBit_lt_two_pow hs
    rw [hbit, Bool.xor_false]
  · rw [Fin.snoc_castSucc, Fin.snoc_castSucc]
    simp

theorem backComp_mcx_snoc (n : ℕ) (x : Fin n → Bool) (b : Bool) :
    gateFun n (Gate.mcx (List.range n) n) (Fin.snoc x b) =
      Fin.snoc x (if ∀ i, x i = true then !b else b) := by
  show mcxFun n (List.range n) n (Fin.snoc x b) = _
  by_cases hx : ∀ i, x i = true
  · have hall : (List.range n).all (readNat n (Fin.snoc x b)) = true := by
      rw [List.all_eq_true]
      intro c hc
      have hlt : c < n := List.mem_range.mp hc
      rw [readNat_snoc_lt n x b hlt]
      exact hx ⟨c, hlt⟩
    rw [mcxFun, if_pos hall, flipNat_snoc_last, if_pos hx]
  · have hcond : ¬ ((List.range n).all (readNat n (Fin.snoc x b)) = true) := by
      intro hall
      apply hx
      intro i
      have := List.all_eq_true.mp hall i.val (List.mem_range.mpr i.isLt)
      rw [readNat_snoc_lt n x b i.isLt] at this
      simpa using this
    rw [mcxFun, if_neg hcond, if_neg hx]

theorem add_cx_classical_ok (n : ℕ) (bits : List Char) :
    ∀ g ∈ add_cx [] bits, isClassicalGate g = true ∧ gateOk n g := by
  intro g hg
  obtain ⟨i, rfl⟩ := add_cx_only_x bits g hg
  exact ⟨rfl, trivial⟩

theorem djTriple_classical_ok (n s : ℕ) :
    ∀ g ∈ djTriple n s, isClassicalGate g = true ∧ gateOk n g := by
  intro g hg
  unfold djTriple at hg
  rcases List.mem_append.mp hg with hg1 | hg2
  · rcases List.mem_append.mp hg1 with hg3 | hg4
    · rcases List.mem_append.mp hg3 with hg5 | hg6
      · rw [List.mem_singleton.mp hg5]
        exact ⟨rfl, trivial⟩
      · exact add_cx_classical_ok n _ g hg6
    · rw [List.mem_singleton.mp hg4]
      refine ⟨rfl, fun hmem => ?_⟩
      exact absurd (List.mem_range.mp hmem) (lt_irrefl n)
  · exact add_cx_classical_ok n _ g hg2

theorem dj_function_classical_ok (n : ℕ) (flip constant : Bool) (on_states : List ℕ) :
    ∀ g ∈ (dj_function n flip constant on_states).gates,
      isClassicalGate g = true ∧ gateOk n g := by
  intro g hg
  rcases List.mem_append.mp hg with hg1 | hg2
  · by_cases hf : flip
    · rw [if_pos hf] at hg1
      rw [List.mem_singleton.mp hg1]
      exact ⟨rfl, trivial⟩
    · rw [if_neg hf] at hg1
      cases hg1
  · by_cases hc : constant
    · rw [if_pos hc] at hg2
      cases hg2
    · rw [if_neg hc] at hg2
      rcases List.mem_append.mp hg2 with hg3 | hg4
      · obtain ⟨l, hl, hgl⟩ := List.mem_flatten.mp hg3
        obtain ⟨s, _, rfl⟩ := List.mem_map.mp hl
        exact djTriple_classical_ok n s g hgl
      · rw [List.mem_singleton.mp hg4]
        exact ⟨rfl, trivial⟩

theorem backComp_djTriple (n s : ℕ) (hs : s < 2 ^ n) (x : Fin n → Bool) (b : Bool) :
    backComp n (djTriple n s) (Fin.snoc x b) =
      Fin.snoc x (xor b (decide (x = complPattern n s))) := by
  have hsize : Nat.size s ≤ n + 1 := le_trans (Nat.size_le.mpr hs) (by omega)
  unfold djTriple
  rw [backComp_append, backComp_append, backComp_append]
  rw [backComp_add_cx n s hsize (Fin.snoc x b), mask_snoc n s hs x b,
    backComp_singleton n (Gate.mcx (List.range n) n), backComp_mcx_snoc]
  rw [backComp_add_cx n s hsize, mask_snoc n s hs]
  have hmask : (fun i : Fin n => xor (xor (x i) (s.testBit i.val)) (s.testBit i.val)) = x := by
    funext i
    rw [Bool.xor_assoc, Bool.xor_self, Bool.xor_false]
  rw [hmask, backComp_singleton n Gate.barrier]
  show (Fin.snoc x (if ∀ i : Fin n, xor (x i) (s.testBit i.val) = true then !b else b) :
    Basis n) = _
  have hcond : (∀ i : Fin n, xor (x i) (s.testBit i.val) = true) ↔ x = complPattern n s := by
    constructor
    · intro h
      funext i
      have hxi := h i
      revert hxi
      unfold complPattern
      cases x i <;> cases s.testBit i.val <;> simp
    · intro h i
      rw [h]
      unfold complPattern
      cases s.testBit i.val <;> rfl
  refine snoc_congr n x ?_
  by_cases hmatch : x = complPattern n s
  · rw [if_pos (hcond.mpr hmatch), decide_eq_true hmatch]
    cases b <;> rfl
  · rw [if_neg (fun hall => hmatch (hcond.mp hall)), decide_eq_false hmatch]
    cases b <;> rfl

theorem backComp_triples (n : ℕ) (on_states : List ℕ)
    (hmem : ∀ s ∈ on_states, s < 2 ^ n) (hnd : on_states.Nodup)
    (x : Fin n → Bool) (b : Bool) :
    backComp n ((on_states.map (djTriple n)).flatten) (Fin.snoc x b) =
      Fin.snoc x (xor b (onMember n on_states x)) := by
  induction on_states with
  | nil =>
    show (Fin.snoc x b : Basis n) = _
    rw [show onMember n [] x = false from rfl, Bool.xor_false]
  | cons s rest ih =>
    rw [List.map_cons, List.flatten_cons, backComp_append]
    rw [ih (fun t ht => hmem t (List.mem_cons_of_mem _ ht)) (List.nodup_cons.mp hnd).2]
    rw [backComp_djTriple n s (hmem s (List.mem_cons_self _ _))]
    refine snoc_congr n x ?_
    have hdisj : decide (x = complPattern n s) = true → onMember n rest x = false := by
      intro hm
      by_contra hr
      rw [Bool.not_eq_false] at hr
      obtain ⟨t, ht, hxt⟩ := List.any_eq_true.mp hr
      have hxs : x = complPattern n s := of_decide_eq_true hm
      have hxt' : x = complPattern n t := of_decide_eq_true hxt
      have hst : s = t := by
        have hcc : complPattern n s = complPattern n t := hxs.symm.trans hxt'
        apply Nat.eq_of_testBit_eq
        intro i
        by_cases hi : i < n
        · have hci := congrFun hcc ⟨i, hi⟩
          unfold complPattern at hci
          exact Bool.not_inj hci
        · have h1 : s.testBit i = false := Nat.testBit_lt_two_pow
            (lt_of_lt_of_le (hmem s (List.mem_cons_self _ _))
              (Nat.pow_le_pow_right (by omega) (by omega)))
          have h2 : t.testBit i = false := Nat.testBit_lt_two_pow
            (lt_of_lt_of_le (hmem t (List.mem_cons_of_mem _ ht))
              (Nat.pow_le_pow_right (by omega) (by omega)))
          rw [h1, h2]
      exact (List.nodup_cons.mp hnd).1 (hst ▸ ht)
    have hcons : onMember n (s :: rest) x =
        (decide (x = complPattern n s) || onMember n rest x) := by
      unfold onMember
      rw [List.any_cons]
    rw [hcons]
    cases hm : decide (x = complPattern n s)
    · cases hr : onMember n rest x <;> cases b <;> rfl
    · rw [hdisj hm]
      cases b <;> rfl

theorem backComp_dj_function (n : ℕ) (flip constant : Bool) (on_states : List ℕ)
    (hmem : ∀ s ∈ on_states, s < 2 ^ n) (hnd : on_states.Nodup)
    (x : Fin n → Bool) (b : Bool) :
    backComp n (dj_function n flip constant on_states).gates (Fin.snoc x b) =
      Fin.snoc x (xor b (oracleFun n flip constant on_states x)) := by
  show backComp n ((if flip then [Gate.x n] else []) ++ _) _ = _
  rw [backComp_append]
  have hinner : backComp n
      (if constant then []
       else ((on_states.map (djTriple n)).flatten ++ [Gate.barrier])) (Fin.snoc x b) =
      Fin.snoc x (xor b (if constant then false else onMember n on_states x)) := by
    by_cases hc : constant
    · rw [if_pos hc, if_pos hc]
      show (Fin.snoc x b : Basis n) = _
      rw [Bool.xor_false]
    · rw [if_neg hc, if_neg hc, backComp_append, backComp_singleton]
      show backComp n _ (Fin.snoc x b) = _
      exact backComp_triples n on_states hmem hnd x b
  rw [hinner]
  unfold oracleFun
  generalize (if constant then false else onMember n on_states x) = M
  by_cases hf : flip = true
  · rw [hf, if_pos rfl, backComp_singleton]
    show flipNat n n _ = _
    rw [flipNat_snoc_last]
    refine snoc_congr n x ?_
    cases b <;> cases M <;> rfl
  · have hf' : flip = false := by revert hf; cases flip <;> simp
    rw [hf', if_neg (by simp)]
    show (Fin.snoc x (xor b M) : Basis n) = _
    refine snoc_congr n x ?_
    cases b <;> cases M <;> rfl

end DJSim

namespace DJSim

theorem forwardEval_dj_function (n : ℕ) (flip constant : Bool) (on_states : List ℕ)
    (hmem : ∀ s ∈ on_states, s < 2 ^ n) (hnd : on_states.Nodup)
    (x : Fin n → Bool) (b : Bool) :
    forwardEval n (dj_function n flip constant on_states).gates (Fin.snoc x b) =
      Fin.snoc x (xor b (oracleFun n flip constant on_states x)) := by
  have hca := dj_function_classical_ok n flip constant on_states
  have hw := @backComp_forwardEval n ((dj_function n flip constant on_states).gates)
    (fun g hg => ⟨(hca g hg).2, (hca g hg).1⟩) (Fin.snoc x b)
  set w := forwardEval n (dj_function n flip constant on_states).gates (Fin.snoc x b)
    with hwdef
  have hsnoc : w = Fin.snoc (Fin.init w) (w (Fin.last n)) := (Fin.snoc_init_self w).symm
  rw [hsnoc, backComp_dj_function n flip constant on_states hmem hnd] at hw
  have hx : Fin.init w = x := by
    have hiw := congrArg Fin.init hw
    rwa [Fin.init_snoc, Fin.init_snoc] at hiw
  have hb : xor (w (Fin.last n)) (oracleFun n flip constant on_states (Fin.init w)) = b := by
    have hlw := congrFun hw (Fin.last n)
    rwa [Fin.snoc_last, Fin.snoc_last] at hlw
  rw [hx] at hb
  rw [hsnoc, hx]
  refine snoc_congr n x ?_
  rw [← hb, Bool.xor_assoc, Bool.xor_self, Bool.xor_false]

theorem oracleOutput_dj_function (n : ℕ) (flip constant : Bool) (on_states : List ℕ)
    (hmem : ∀ s ∈ on_states, s < 2 ^ n) (hnd : on_states.Nodup) (x : Fin n → Bool) :
    oracleOutput n (dj_function n flip constant on_states).gates x =
      oracleFun n flip constant on_states x := by
  unfold oracleOutput
  rw [forwardEval_dj_function n flip constant on_states hmem hnd x false, Fin.snoc_last,
    Bool.false_xor]

theorem card_onMember (n : ℕ) (on_states : List ℕ)
    (hmem : ∀ s ∈ on_states, s < 2 ^ n) (hnd : on_states.Nodup) :
    (Finset.univ.filter (fun x : Fin n → Bool => onMember n on_states x = true)).card =
      on_states.length := by
  have hinj : ∀ s ∈ on_states, ∀ t ∈ on_states,
      complPattern n s = complPattern n t → s = t := by
    intro s hsm t htm hcc
    apply Nat.eq_of_testBit_eq
    intro i
    by_cases hi : i < n
    · have hci := congrFun hcc ⟨i, hi⟩
      unfold complPattern at hci
      exact Bool.not_inj hci
    · rw [Nat.testBit_lt_two_pow (lt_of_lt_of_le (hmem s hsm)
        (Nat.pow_le_pow_right (by omega) (by omega))),
        Nat.testBit_lt_two_pow (lt_of_lt_of_le (hmem t htm)
        (Nat.pow_le_pow_right (by omega) (by omega)))]
  have hfilter : Finset.univ.filter (fun x : Fin n → Bool => onMember n on_states x = true) =
      (on_states.map (complPattern n)).toFinset := by
    ext x
    simp only [Finset.mem_filter, Finset.mem_univ, true_and, List.mem_toFinset, List.mem_map]
    unfold onMember
    rw [List.any_eq_true]
    constructor
    · rintro ⟨s, hs, hdec⟩
      exact ⟨s, hs, (of_decide_eq_true hdec).symm⟩
    · rintro ⟨s, hs, hx⟩
      exact ⟨s, hs, decide_eq_true hx.symm⟩
  rw [hfilter, List.toFinset_card_of_nodup (List.Nodup.map_on hinj hnd), List.length_map]

theorem card_univ_fun_bool (n : ℕ) :
    (Finset.univ : Finset (Fin n → Bool)).card = 2 ^ n := by
  rw [Finset.card_univ]
  simp [Fintype.card_fun]

theorem card_oracleFun_balanced (n : ℕ) (hn : 1 ≤ n) (flip : Bool) (on_states : List ℕ)
    (hmem : ∀ s ∈ on_states, s < 2 ^ n) (hnd : on_states.Nodup)
    (hlen : on_states.length = 2 ^ n / 2) :
    (Finset.univ.filter (fun x : Fin n → Bool =>
      oracleFun n flip false on_states x = true)).card = 2 ^ n / 2 := by
  have hM : (Finset.univ.filter (fun x : Fin n → Bool =>
      onMember n on_states x = true)).card = 2 ^ n / 2 := by
    rw [card_onMember n on_states hmem hnd, hlen]
  have hcardU := card_univ_fun_bool n
  have hpow : 2 * (2 ^ n / 2) = 2 ^ n := by
    rw [show n = n - 1 + 1 from by omega, pow_succ]
    omega
  by_cases hf : flip = true
  · have hfeq : Finset.univ.filter (fun x : Fin n → Bool =>
        oracleFun n flip false on_states x = true) =
        Finset.univ.filter (fun x : Fin n → Bool => ¬ onMember n on_states x = true) := by
      apply Finset.filter_congr
      intro x _
      unfold oracleFun
      rw [hf]
      cases honm : onMember n on_states x <;> simp
    have hsplit := Finset.filter_card_add_filter_neg_card_eq_card
      (s := (Finset.univ : Finset (Fin n → Bool)))
      (fun x : Fin n → Bool => onMember n on_states x = true)
    rw [hfeq]
    omega
  · have hf' : flip = false := by revert hf; cases flip <;> simp
    have hfeq : Finset.univ.filter (fun x : Fin n → Bool =>
        oracleFun n flip false on_states x = true) =
        Finset.univ.filter (fun x : Fin n → Bool => onMember n on_states x = true) := by
      apply Finset.filter_congr
      intro x _
      unfold oracleFun
      rw [hf']
      cases honm : onMember n on_states x <;> simp
    rw [hfeq, hM]

theorem classicalQuery_dj_function (n : ℕ) (flip constant : Bool) (on_states : List ℕ)
    (hmem : ∀ s ∈ on_states, s < 2 ^ n) (hnd : on_states.Nodup)
    (s : ℕ) (hs : s < 2 ^ n) :
    classicalQuery (dj_function n flip constant on_states) s =
      oracleFun n flip constant on_states (bitsOf n s) := by
  show readNat n (forwardEval n
    (add_cx [] (pyBin s) ++ (dj_function n flip constant on_states).gates)
    (fun _ => false)) n = _
  rw [forwardEval_append]
  have hsize : Nat.size s ≤ n + 1 := le_trans (Nat.size_le.mpr hs) (by omega)
  rw [forwardEval_add_cx n s hsize]
  have hprep : (fun q : Fin (n + 1) => xor ((fun _ => false : Basis n) q) (s.testBit q.val)) =
      (Fin.snoc (bitsOf n s) false : Basis n) := by
    funext q
    refine Fin.lastCases ?_ (fun i => ?_) q
    · rw [Fin.snoc_last]
      have hbit : s.testBit (Fin.last n).val = false := Nat.testBit_lt_two_pow hs
      rw [hbit]
      rfl
    · rw [Fin.snoc_castSucc]
      simp [bitsOf]
  rw [hprep, forwardEval_dj_function n flip constant on_states hmem hnd, Bool.false_xor]
  have hlt : n < n + 1 := Nat.lt_succ_self n
  simp only [readNat, natQ, hlt, dif_pos]
  exact Fin.snoc_last _ _

end DJSim

namespace DJSim

theorem djLoop_const (g : ℕ → Bool) (c : Bool) :
    ∀ (l : List ℕ) (outputs : List Bool) (num : ℕ),
      (∀ s ∈ l, g s = c) → (∀ o ∈ outputs, o = c) →
      djLoop g l outputs num = ("constant", num + l.length) := by
  intro l
  induction l with
  | nil =>
    intro outputs num _ _
    show ("constant", num) = ("constant", num + ([] : List ℕ).length)
    rw [List.length_nil, Nat.add_zero]
  | cons s rest ih =>
    intro outputs num hl ho
    show (if outputs ≠ [] ∧ g s ∉ outputs then ("balanced", num + 1)
      else djLoop g rest (outputs ++ [g s]) (num + 1)) = _
    have hcond : ¬ (outputs ≠ [] ∧ g s ∉ outputs) := by
      rintro ⟨hne, hnotin⟩
      apply hnotin
      rw [hl s (List.mem_cons_self _ _)]
      cases outputs with
      | nil => exact absurd rfl hne
      | cons o os =>
        rw [← ho o (List.mem_cons_self _ _)]
        exact List.mem_cons_self _ _
    rw [if_neg hcond]
    have ho2 : ∀ o ∈ outputs ++ [g s], o = c := by
      intro o hom
      rcases List.mem_append.mp hom with h1 | h2
      · exact ho o h1
      · rw [List.mem_singleton.mp h2]
        exact hl s (List.mem_cons_self _ _)
    rw [ih (outputs ++ [g s]) (num + 1) (fun t ht => hl t (List.mem_cons_of_mem _ ht)) ho2]
    rw [show num + 1 + rest.length = num + (s :: rest).length from by
      rw [List.length_cons]; omega]

theorem djLoop_phase (g : ℕ → Bool) (c : Bool) :
    ∀ (len a i0 : ℕ) (outputs : List Bool) (num : ℕ),
      outputs ≠ [] → (∀ o ∈ outputs, o = c) →
      i0 < len → g (a + i0) ≠ c → (∀ i < i0, g (a + i) = c) →
      djLoop g (List.range' a len) outputs num = ("balanced", num + i0 + 1) := by
  intro len
  induction len with
  | zero =>
    intro a i0 outputs num _ _ h0 _ _
    exact absurd h0 (Nat.not_lt_zero i0)
  | succ len ih =>
    intro a i0 outputs num hne hall hi0 hdiff hmin
    rw [List.range'_succ]
    show (if outputs ≠ [] ∧ g a ∉ outputs then ("balanced", num + 1)
      else djLoop g (List.range' (a + 1) len) (outputs ++ [g a]) (num + 1)) = _
    cases i0 with
    | zero =>
      rw [Nat.add_zero] at hdiff
      have hcond : outputs ≠ [] ∧ g a ∉ outputs := by
        refine ⟨hne, fun hmem => hdiff (hall _ hmem)⟩
      rw [if_pos hcond]
    | succ i0' =>
      have hga : g a = c := by
        have h0 := hmin 0 (by omega)
        rwa [Nat.add_zero] at h0
      have hcond : ¬ (outputs ≠ [] ∧ g a ∉ outputs) := by
        rintro ⟨_, hnotin⟩
        apply hnotin
        rw [hga]
        cases outputs with
        | nil => exact absurd rfl hne
        | cons o os =>
          rw [← hall o (List.mem_cons_self _ _)]
          exact List.mem_cons_self _ _
      have hall2 : ∀ o ∈ outputs ++ [g a], o = c := by
        intro o hom
        rcases List.mem_append.mp hom with h1 | h2
        · exact hall o h1
        · rw [List.mem_singleton.mp h2]
          exact hga
      have hdiff2 : g (a + 1 + i0') ≠ c := by
        rw [show a + 1 + i0' = a + (i0' + 1) from by omega]
        exact hdiff
      have hmin2 : ∀ i < i0', g (a + 1 + i) = c := by
        intro i hi
        rw [show a + 1 + i = a + (i + 1) from by omega]
        exact hmin (i + 1) (by omega)
      rw [if_neg hcond,
        ih (a + 1) i0' (outputs ++ [g a]) (num + 1) (by simp) hall2 (by omega) hdiff2 hmin2]
      rw [show num + 1 + i0' + 1 = num + (i0' + 1) + 1 from by omega]

theorem djLoop_range_balanced (g : ℕ → Bool) (m k : ℕ) (hm : k < m) (hk0 : 0 < k)
    (hdiff : g k ≠ g 0) (hmin : ∀ j < k, g j = g 0) :
    djLoop g (List.range m) [] 0 = ("balanced", k + 1) := by
  obtain ⟨M, rfl⟩ : ∃ M, m = M + 1 := ⟨m - 1, by omega⟩
  rw [List.range_eq_range', List.range'_succ]
  show (if ([] : List Bool) ≠ [] ∧ g 0 ∉ ([] : List Bool) then ("balanced", 0 + 1)
    else djLoop g (List.range' (0 + 1) M) ([] ++ [g 0]) (0 + 1)) = _
  rw [if_neg (by simp)]
  have hd : g (1 + (k - 1)) ≠ g 0 := by
    rw [show 1 + (k - 1) = k from by omega]
    exact hdiff
  have hm2 : ∀ i < k - 1, g (1 + i) = g 0 := by
    intro i hi
    exact hmin (1 + i) (by omega)
  have hph := djLoop_phase g (g 0) M 1 (k - 1) [g 0] 1 (by simp)
    (fun o ho => List.mem_singleton.mp ho) (by omega) hd hm2
  rw [show (0 + 1) = 1 from rfl, List.nil_append, hph]
  rw [show 1 + (k - 1) + 1 = k + 1 from by omega]

theorem bitsOf_inj (n : ℕ) {s t : ℕ} (hs : s < 2 ^ n) (ht : t < 2 ^ n)
    (h : bitsOf n s = bitsOf n t) : s = t := by
  apply Nat.eq_of_testBit_eq
  intro i
  by_cases hi : i < n
  · exact congrFun h ⟨i, hi⟩
  · rw [Nat.testBit_lt_two_pow (lt_of_lt_of_le hs
      (Nat.pow_le_pow_right (by omega) (by omega))),
      Nat.testBit_lt_two_pow (lt_of_lt_of_le ht
      (Nat.pow_le_pow_right (by omega) (by omega)))]

theorem half_pow (n : ℕ) (hn : 1 ≤ n) : 2 ^ n / 2 = 2 ^ (n - 1) := by
  conv_lhs => rw [show n = n - 1 + 1 from by omega, pow_succ]
  omega

theorem two_mul_half_pow (n : ℕ) (hn : 1 ≤ n) : 2 * (2 ^ n / 2) = 2 ^ n := by
  rw [show n = n - 1 + 1 from by omega, pow_succ]
  omega

theorem exists_balanced_disagreement (n : ℕ) (hn : 1 ≤ n) (f : (Fin n → Bool) → Bool)
    (hcard : (Finset.univ.filter (fun x => f x = true)).card = 2 ^ n / 2) :
    ∃ k, 0 < k ∧ k ≤ 2 ^ (n - 1) ∧ f (bitsOf n k) ≠ f (bitsOf n 0) := by
  have hpow2 := half_pow n hn
  have hlt2n : ∀ k, k ≤ 2 ^ (n - 1) → k < 2 ^ n := by
    intro k hk
    exact lt_of_le_of_lt hk (Nat.pow_lt_pow_right (by omega) (by omega))
  by_contra hno
  push_neg at hno
  have hall : ∀ k, k ≤ 2 ^ (n - 1) → f (bitsOf n k) = f (bitsOf n 0) := by
    intro k hk
    rcases Nat.eq_zero_or_pos k with rfl | hpos
    · rfl
    · exact hno k hpos hk
  have himg : (Finset.range (2 ^ (n - 1) + 1)).image (bitsOf n) ⊆
      Finset.univ.filter (fun x => f x = f (bitsOf n 0)) := by
    intro x hx
    obtain ⟨k, hk, rfl⟩ := Finset.mem_image.mp hx
    rw [Finset.mem_filter]
    exact ⟨Finset.mem_univ _, hall k (by
      have := Finset.mem_range.mp hk
      omega)⟩
  have hcardimg : ((Finset.range (2 ^ (n - 1) + 1)).image (bitsOf n)).card =
      2 ^ (n - 1) + 1 := by
    rw [Finset.card_image_of_injOn, Finset.card_range]
    intro a ha b hb hab
    have ha' := Finset.mem_range.mp ha
    have hb' := Finset.mem_range.mp hb
    exact bitsOf_inj n (hlt2n a (by omega)) (hlt2n b (by omega)) hab
  have hcardc : (Finset.univ.filter (fun x => f x = f (bitsOf n 0))).card = 2 ^ (n - 1) := by
    rcases Bool.dichotomy (f (bitsOf n 0)) with hcv | hcv
    · rw [hcv]
      have hneg : Finset.univ.filter (fun x : Fin n → Bool => f x = false) =
          Finset.univ.filter (fun x : Fin n → Bool => ¬ f x = true) :=
        Finset.filter_congr (fun x _ => by cases f x <;> simp)
      have hsplit := Finset.filter_card_add_filter_neg_card_eq_card
        (s := (Finset.univ : Finset (Fin n → Bool))) (fun x => f x = true)
      have hU := card_univ_fun_bool n
      have hpw := two_mul_half_pow n hn
      rw [hneg]
      omega
    · rw [hcv, hcard, hpow2]
  have hle := Finset.card_le_card himg
  rw [hcardimg, hcardc] at hle
  omega

theorem add_cx_padBin (width s : ℕ) :
    add_cx [] (padBin width s) = add_cx [] (pyBin s) := by
  unfold add_cx padBin
  rw [List.nil_append, List.nil_append, List.reverse_append, List.reverse_replicate,
    List.enum_append, List.filterMap_append]
  have hzero : List.filterMap
      (fun p : ℕ × Char => if p.2 = '1' then some (Gate.x p.1) else none)
      (List.enumFrom (pyBin s).reverse.length
        (List.replicate (width - (pyBin s).length) '0')) = [] := by
    rw [List.filterMap_eq_nil_iff]
    intro p hp
    have hsnd : p.2 = '0' := by
      have hmap := List.enumFrom_map_snd (pyBin s).reverse.length
        (List.replicate (width - (pyBin s).length) '0')
      have hmem : p.2 ∈ List.replicate (width - (pyBin s).length) '0' := by
        rw [← hmap]
        exact List.mem_map_of_mem _ hp
      exact List.eq_of_mem_replicate hmem
    rw [hsnd]
    rfl
  rw [hzero, List.append_nil]

end DJSim

namespace DJSim

/-- C2: for every n >= 1, every oracle produced by dj_function on the
BALANCED branch (any optional global output-flip, any on-state sample of
distinct states below 2^n with exactly 2^n / 2 members) outputs 1 on exactly
2^n / 2 of the 2^n computational-basis inputs when the output line is read
after one application of the oracle. -/
theorem dj_function_balanced_half_ones (n : ℕ) (hn : 1 ≤ n) (flip : Bool)
    (on_states : List ℕ) (hnd : on_states.Nodup)
    (hlen : on_states.length = 2 ^ n / 2) (hmem : ∀ s ∈ on_states, s < 2 ^ n) :
    (Finset.univ.filter (fun x : Fin n → Bool =>
      oracleOutput n (dj_function n flip false on_states).gates x = true)).card =
      2 ^ n / 2 := by
  have hfeq : Finset.univ.filter (fun x : Fin n → Bool =>
      oracleOutput n (dj_function n flip false on_states).gates x = true) =
      Finset.univ.filter (fun x : Fin n → Bool =>
        oracleFun n flip false on_states x = true) :=
    Finset.filter_congr fun x _ => by
      rw [oracleOutput_dj_function n flip false on_states hmem hnd x]
  rw [hfeq]
  exact card_oracleFun_balanced n hn flip on_states hmem hnd hlen

theorem dj_function_balanced_half_ones_witness :
    (1 ≤ 2 ∧ ([0, 3] : List ℕ).Nodup ∧ ([0, 3] : List ℕ).length = 2 ^ 2 / 2 ∧
      (∀ s ∈ ([0, 3] : List ℕ), s < 2 ^ 2)) ∧
    (Finset.univ.filter (fun x : Fin 2 → Bool =>
      oracleOutput 2 (dj_function 2 true false [0, 3]).gates x = true)).card =
      2 ^ 2 / 2 :=
  ⟨⟨by norm_num, by decide, by decide, by decide⟩,
    dj_function_balanced_half_ones 2 (by norm_num) true [0, 3] (by decide) (by decide)
      (by decide)⟩

/-- C3 (evidence for the code bug): the on-state block emitted for pattern
s = 0 with one input line flips the output line exactly at the input that is
the bitwise complement of the pattern, not at the pattern itself: querying
the block at input 0 (the pattern) leaves the output at 0, while querying it
at input 1 (the complement) sets the output to 1 — contradicting the
spec/comment "flip the output if the inputs match one of the strings in
on_states". -/
theorem djTriple_flips_complement_not_pattern :
    oracleOutput 1 (djTriple 1 0) (fun _ => false) = false ∧
    oracleOutput 1 (djTriple 1 0) (fun _ => true) = true := by
  decide

/-- C4: for every n >= 1 and every CONSTANT oracle produced by dj_function
(the on-state sample is ignored on that branch), the classical decision
procedure walks the inputs 0, 1, ..., 2^(n-1) in order, performs exactly
2^(n-1)+1 queries, and returns ("constant", 2^(n-1)+1). -/
theorem dj_classical_constant_query_count (n : ℕ) (hn : 1 ≤ n) (flip : Bool)
    (on_states : List ℕ) :
    dj_classical_algorithm (dj_function n flip true on_states) =
      ("constant", 2 ^ (n - 1) + 1) := by
  have hswap : dj_function n flip true on_states = dj_function n flip true [] := rfl
  rw [hswap]
  show djLoop (classicalQuery (dj_function n flip true []))
    (List.range (2 ^ (n - 1) + 1)) [] 0 = _
  have hq : ∀ s ∈ List.range (2 ^ (n - 1) + 1),
      classicalQuery (dj_function n flip true []) s = flip := by
    intro s hsm
    have hsr := List.mem_range.mp hsm
    have hs2n : s < 2 ^ n := by
      have hp := Nat.pow_lt_pow_right (a := 2) (by omega) (show n - 1 < n by omega)
      omega
    rw [classicalQuery_dj_function n flip true [] (by simp) List.nodup_nil s hs2n]
    unfold oracleFun
    cases flip <;> rfl
  rw [djLoop_const (classicalQuery (dj_function n flip true [])) flip
    (List.range (2 ^ (n - 1) + 1)) [] 0 hq (by simp)]
  rw [List.length_range, Nat.zero_add]

theorem dj_classical_constant_query_count_witness :
    1 ≤ 1 ∧ dj_classical_algorithm (dj_function 1 true true []) =
      ("constant", 2 ^ (1 - 1) + 1) :=
  ⟨le_rfl, dj_classical_constant_query_count 1 le_rfl true []⟩

/-- C5: for every n >= 1 and every BALANCED oracle produced by dj_function,
the classical decision procedure returns "balanced" within at most
2^(n-1)+1 queries, and the query count is exactly k+1 where k is the first
candidate input whose recorded output differs from the first recorded
output — the loop terminates immediately at that query. -/
theorem dj_classical_balanced_early_exit (n : ℕ) (hn : 1 ≤ n) (flip : Bool)
    (on_states : List ℕ) (hnd : on_states.Nodup) (hlen : on_states.length = 2 ^ n / 2)
    (hmem : ∀ s ∈ on_states, s < 2 ^ n) :
    (dj_classical_algorithm (dj_function n flip false on_states)).1 = "balanced" ∧
    (dj_classical_algorithm (dj_function n flip false on_states)).2 ≤ 2 ^ (n - 1) + 1 ∧
    ∃ k, (dj_classical_algorithm (dj_function n flip false on_states)).2 = k + 1 ∧
      0 < k ∧ k ≤ 2 ^ (n - 1) ∧
      classicalQuery (dj_function n flip false on_states) k ≠
        classicalQuery (dj_function n flip false on_states) 0 ∧
      ∀ j < k, classicalQuery (dj_function n flip false on_states) j =
        classicalQuery (dj_function n flip false on_states) 0 := by
  have hcard := card_oracleFun_balanced n hn flip on_states hmem hnd hlen
  obtain ⟨k0, hk0pos, hk0le, hk0diff⟩ :=
    exists_balanced_disagreement n hn (oracleFun n flip false on_states) hcard
  have hlt2n : ∀ k, k ≤ 2 ^ (n - 1) → k < 2 ^ n := by
    intro k hk
    have hp := Nat.pow_lt_pow_right (a := 2) (by omega) (show n - 1 < n by omega)
    omega
  have hq : ∀ s, s < 2 ^ n →
      classicalQuery (dj_function n flip false on_states) s =
        oracleFun n flip false on_states (bitsOf n s) :=
    fun s hs => classicalQuery_dj_function n flip false on_states hmem hnd s hs
  have hgdiff : classicalQuery (dj_function n flip false on_states) k0 ≠
      classicalQuery (dj_function n flip false on_states) 0 := by
    rw [hq k0 (hlt2n k0 hk0le), hq 0 (hlt2n 0 (by omega))]
    exact hk0diff
  have hexP : ∃ j, classicalQuery (dj_function n flip false on_states) j ≠
      classicalQuery (dj_function n flip false on_states) 0 := ⟨k0, hgdiff⟩
  have hkspec := Nat.find_spec hexP
  have hkle0 : Nat.find hexP ≤ k0 := Nat.find_le hgdiff
  have hkle : Nat.find hexP ≤ 2 ^ (n - 1) := le_trans hkle0 hk0le
  have hkpos : 0 < Nat.find hexP := by
    rcases Nat.eq_zero_or_pos (Nat.find hexP) with hk0 | hp
    · exfalso
      apply hkspec
      rw [hk0]
    · exact hp
  have hkmin : ∀ j < Nat.find hexP,
      classicalQuery (dj_function n flip false on_states) j =
        classicalQuery (dj_function n flip false on_states) 0 := by
    intro j hj
    have hnm := Nat.find_min hexP hj
    by_contra hne
    exact hnm hne
  have halg : dj_classical_algorithm (dj_function n flip false on_states) =
      ("balanced", Nat.find hexP + 1) :=
    djLoop_range_balanced (classicalQuery (dj_function n flip false on_states))
      (2 ^ (n - 1) + 1) (Nat.find hexP) (by omega) hkpos hkspec hkmin
  rw [halg]
  refine ⟨rfl, ?_, Nat.find hexP, rfl, hkpos, hkle, hkspec, hkmin⟩
  show Nat.find hexP + 1 ≤ 2 ^ (n - 1) + 1
  omega

theorem dj_classical_balanced_early_exit_witness :
    (1 ≤ 1 ∧ ([1] : List ℕ).Nodup ∧ ([1] : List ℕ).length = 2 ^ 1 / 2 ∧
      (∀ s ∈ ([1] : List ℕ), s < 2 ^ 1)) ∧
    ((dj_classical_algorithm (dj_function 1 false false [1])).1 = "balanced" ∧
     (dj_classical_algorithm (dj_function 1 false false [1])).2 ≤ 2 ^ (1 - 1) + 1 ∧
     ∃ k, (dj_classical_algorithm (dj_function 1 false false [1])).2 = k + 1 ∧
       0 < k ∧ k ≤ 2 ^ (1 - 1) ∧
       classicalQuery (dj_function 1 false false [1]) k ≠
         classicalQuery (dj_function 1 false false [1]) 0 ∧
       ∀ j < k, classicalQuery (dj_function 1 false false [1]) j =
         classicalQuery (dj_function 1 false false [1]) 0) :=
  ⟨⟨le_rfl, by decide, by decide, by decide⟩,
    dj_classical_balanced_early_exit 1 le_rfl false [1] (by decide) (by decide) (by decide)⟩

/-- C10: for every state below 2^n, add_cx applied to the unpadded binary
string f"{state:0b}" emits exactly one X gate per 1-bit of state (qubit i is
flipped iff bit i of state is 1 and nothing but X gates is emitted); padding
the string with leading zeros to width n produces the identical gate list,
so the absence of padding never changes which qubits are flipped; and
running the layer twice restores every basis state. -/
theorem add_cx_testBit_spec (n state : ℕ) (hs : state < 2 ^ n) :
    (∀ i, Gate.x i ∈ add_cx [] (pyBin state) ↔ state.testBit i = true) ∧
    (∀ g ∈ add_cx [] (pyBin state), ∃ i, g = Gate.x i) ∧
    add_cx [] (padBin n state) = add_cx [] (pyBin state) ∧
    (∀ v : Basis n, forwardEval n (add_cx [] (pyBin state)) v =
      fun q => xor (v q) (state.testBit q.val)) ∧
    (∀ v : Basis n,
      forwardEval n (add_cx [] (pyBin state) ++ add_cx [] (pyBin state)) v = v) := by
  have hsize : Nat.size state ≤ n + 1 := le_trans (Nat.size_le.mpr hs) (by omega)
  refine ⟨fun i => mem_add_cx_pyBin state i, fun g hg => add_cx_only_x _ g hg,
    add_cx_padBin n state, fun v => forwardEval_add_cx n state hsize v, fun v => ?_⟩
  rw [forwardEval_append, forwardEval_add_cx n state hsize,
    forwardEval_add_cx n state hsize]
  funext q
  simp [Bool.xor_assoc]

theorem add_cx_testBit_spec_witness :
    5 < 2 ^ 3 ∧
    ((∀ i, Gate.x i ∈ add_cx [] (pyBin 5) ↔ Nat.testBit 5 i = true) ∧
     (∀ g ∈ add_cx [] (pyBin 5), ∃ i, g = Gate.x i) ∧
     add_cx [] (padBin 3 5) = add_cx [] (pyBin 5) ∧
     (∀ v : Basis 3, forwardEval 3 (add_cx [] (pyBin 5)) v =
       fun q => xor (v q) (Nat.testBit 5 q.val)) ∧
     (∀ v : Basis 3,
       forwardEval 3 (add_cx [] (pyBin 5) ++ add_cx [] (pyBin 5)) v = v)) :=
  ⟨by norm_num, add_cx_testBit_spec 3 5 (by norm_num)⟩

end DJSim

namespace DJSim

/-- C6 (counterexample): a malformed oracle with n = 0 input lines (one
qubit, so n < 1) is accepted: dj_algorithm runs without any INVALID_ORACLE
error and happily returns a verdict, because the source performs no
validation before invoking the backend. -/
theorem dj_algorithm_no_invalid_oracle_check :
    dj_algorithm_run (dj_function 0 false true []) (fun _ => false) =
      Except.ok "constant" := rfl

/-- C6 (amended): dj_algorithm never reports any error: for every oracle
(including every malformed one) it reaches the backend and returns the
verdict determined by the sampled string, and compile_circuit always sizes
the compiled circuit from the oracle's own qubit count, so a line-count
mismatch cannot occur. -/
theorem dj_algorithm_never_errors (function : Circuit)
    (m : Fin (function.num_qubits - 1) → Bool) :
    dj_algorithm_run function m =
      Except.ok (dj_algorithm_decision (function.num_qubits - 1) m) ∧
    (∀ e : String, dj_algorithm_run function m ≠ Except.error e) ∧
    (compile_circuit function).num_qubits = function.num_qubits - 1 + 1 := by
  refine ⟨rfl, fun e he => ?_, rfl⟩
  simp [dj_algorithm_run] at he

/-- C7 (counterexample): requesting an oracle with n = 0 < 1 input lines
raises nothing: dj_function succeeds, so INVALID_PARAMETER is not reported
in the claimed n < 1 situation. -/
theorem dj_function_accepts_n_zero :
    dj_function_run 0 false true [] = Except.ok (dj_function 0 false true []) := rfl

/-- C7 (amended): an INVALID_PARAMETER error is raised exactly when the
Deutsch classical-case selector lies outside [1, 2, 3, 4]; the
Deutsch-Jozsa oracle generator performs no validation of its qubit-count
argument and always succeeds. -/
theorem invalid_parameter_only_for_case_selector :
    (∀ c : ℕ, (∃ e, deutsch_function c = Except.error e) ↔
      c ∉ ([1, 2, 3, 4] : List ℕ)) ∧
    (∀ (num_qubits : ℕ) (flip constant : Bool) (on_states : List ℕ),
      dj_function_run num_qubits flip constant on_states =
        Except.ok (dj_function num_qubits flip constant on_states)) := by
  constructor
  · intro c
    constructor
    · rintro ⟨e, he⟩ hcmem
      unfold deutsch_function at he
      rw [if_neg (not_not_intro hcmem)] at he
      simp at he
    · intro hne
      refine ⟨"case must be 1, 2, 3, or 4.", ?_⟩
      unfold deutsch_function
      rw [if_pos hne]
  · intro num_qubits flip constant on_states
    rfl

theorem applyGates_eraseBarriers (n : ℕ) (gs : List Gate) (ψ : QState n) :
    applyGates n (eraseBarriers gs) ψ = applyGates n gs ψ := by
  induction gs generalizing ψ with
  | nil => rfl
  | cons g gs ih =>
    by_cases hb : g = Gate.barrier
    · subst hb
      rw [show eraseBarriers (Gate.barrier :: gs) = eraseBarriers gs from by
        simp [eraseBarriers]]
      rw [applyGates_cons, show applyGate n Gate.barrier ψ = ψ from rfl]
      exact ih ψ
    · rw [show eraseBarriers (g :: gs) = g :: eraseBarriers gs from by
        simp [eraseBarriers, hb]]
      rw [applyGates_cons, applyGates_cons]
      exact ih (applyGate n g ψ)

/-- C8: the two compile_circuit implementations realize the identical
protocol: for every oracle circuit they produce the same qubit and
classical-bit counts and the same measurement plan, their gate lists agree
once the no-op barriers are erased, and the two compiled gate lists act
identically on every amplitude vector of every register size. -/
theorem compile_circuit_protocols_agree (function : Circuit) :
    (deutsch_compile_circuit function).num_qubits =
      (compile_circuit function).num_qubits ∧
    (deutsch_compile_circuit function).num_clbits =
      (compile_circuit function).num_clbits ∧
    (deutsch_compile_circuit function).measurements =
      (compile_circuit function).measurements ∧
    eraseBarriers (deutsch_compile_circuit function).gates =
      eraseBarriers (compile_circuit function).gates ∧
    ∀ (n : ℕ) (ψ : QState n),
      applyGates n (deutsch_compile_circuit function).gates ψ =
        applyGates n (compile_circuit function).gates ψ := by
  have hgates : eraseBarriers (deutsch_compile_circuit function).gates =
      eraseBarriers (compile_circuit function).gates := by
    show eraseBarriers
        ([Gate.x (function.num_qubits - 1)] ++
          (List.range (function.num_qubits - 1 + 1)).map Gate.h ++
          [Gate.barrier] ++ function.gates ++ [Gate.barrier] ++
          (List.range (function.num_qubits - 1)).map Gate.h) =
      eraseBarriers
        ([Gate.x (function.num_qubits - 1)] ++
          (List.range (function.num_qubits - 1 + 1)).map Gate.h ++
          function.gates ++
          (List.range (function.num_qubits - 1)).map Gate.h)
    simp [eraseBarriers, List.filter_append]
  refine ⟨rfl, rfl, rfl, hgates, fun n ψ => ?_⟩
  rw [← applyGates_eraseBarriers n (deutsch_compile_circuit function).gates ψ,
    ← applyGates_eraseBarriers n (compile_circuit function).gates ψ, hgates]

end DJSim

namespace DJSim

theorem updN_pos (n q : ℕ) (hq : q < n + 1) (c : Bool) (v : Basis n) :
    updN n q c v = Function.update v ⟨q, hq⟩ c := by
  simp [updN, natQ, hq]

theorem updN_apply_ne (n q : ℕ) (c : Bool) (v : Basis n) (r : Fin (n + 1))
    (hr : r.val ≠ q) : updN n q c v r = v r := by
  by_cases hq : q < n + 1
  · rw [updN_pos n q hq]
    exact Function.update_noteq (fun he => hr (by rw [he])) _ _
  · simp [updN, natQ, hq]

theorem updN_out (n q : ℕ) (hq : ¬ q < n + 1) (c : Bool) (v : Basis n) :
    updN n q c v = v := by
  simp [updN, natQ, hq]

theorem updN_comm (n : ℕ) {q r : ℕ} (hqr : q ≠ r) (c c' : Bool) (v : Basis n) :
    updN n q c (updN n r c' v) = updN n r c' (updN n q c v) := by
  by_cases hq : q < n + 1 <;> by_cases hr : r < n + 1
  · simp only [updN_pos n q hq, updN_pos n r hr]
    have hne : (⟨r, hr⟩ : Fin (n + 1)) ≠ ⟨q, hq⟩ := by
      intro he
      exact hqr (congrArg Fin.val he).symm
    exact Function.update_comm hne c' c v
  · simp only [updN_out n r hr]
  · simp only [updN_out n q hq]
  · simp only [updN_out n q hq, updN_out n r hr]

theorem sumOverN_congr (n : ℕ) :
    ∀ (L : List ℕ) (ψ φ : QState n) (v : Basis n),
      (∀ w : Basis n, (∀ q : Fin (n + 1), q.val ∉ L → w q = v q) → ψ w = φ w) →
      sumOverN n L ψ v = sumOverN n L φ v := by
  intro L
  induction L with
  | nil =>
    intro ψ φ v h
    exact h v (fun q _ => rfl)
  | cons q L ih =>
    intro ψ φ v h
    show sumOverN n L ψ (updN n q false v) + sumOverN n L ψ (updN n q true v) = _
    have hstep : ∀ c : Bool, ∀ w : Basis n,
        (∀ r : Fin (n + 1), r.val ∉ L → w r = updN n q c v r) → ψ w = φ w := by
      intro c w hw
      apply h w
      intro r hr
      have hrL : r.val ∉ L := fun hmem => hr (List.mem_cons_of_mem _ hmem)
      have hrq : r.val ≠ q := fun he => hr (he ▸ List.mem_cons_self _ _)
      rw [hw r hrL, updN_apply_ne n q c v r hrq]
    rw [ih ψ φ (updN n q false v) (hstep false), ih ψ φ (updN n q true v) (hstep true)]
    rfl

theorem sumOverN_add (n : ℕ) :
    ∀ (L : List ℕ) (ψ φ : QState n) (v : Basis n),
      sumOverN n L (fun w => ψ w + φ w) v = sumOverN n L ψ v + sumOverN n L φ v := by
  intro L
  induction L with
  | nil => intro ψ φ v; rfl
  | cons q L ih =>
    intro ψ φ v
    show sumOverN n L (fun w => ψ w + φ w) (updN n q false v) +
      sumOverN n L (fun w => ψ w + φ w) (updN n q true v) = _
    rw [ih ψ φ (updN n q false v), ih ψ φ (updN n q true v)]
    show _ = sumOverN n L ψ (updN n q false v) + sumOverN n L ψ (updN n q true v) +
      (sumOverN n L φ (updN n q false v) + sumOverN n L φ (updN n q true v))
    ring

theorem sumOverN_precomp (n : ℕ) :
    ∀ (L : List ℕ) (q : ℕ) (c : Bool) (ψ : QState n) (v : Basis n), q ∉ L →
      sumOverN n L (fun w => ψ (updN n q c w)) v = sumOverN n L ψ (updN n q c v) := by
  intro L
  induction L with
  | nil => intro q c ψ v _; rfl
  | cons r L ih =>
    intro q c ψ v hq
    have hqr : q ≠ r := fun he => hq (he ▸ List.mem_cons_self _ _)
    have hqL : q ∉ L := fun hmem => hq (List.mem_cons_of_mem _ hmem)
    show sumOverN n L (fun w => ψ (updN n q c w)) (updN n r false v) +
      sumOverN n L (fun w => ψ (updN n q c w)) (updN n r true v) = _
    rw [ih q c ψ (updN n r false v) hqL, ih q c ψ (updN n r true v) hqL,
      updN_comm n hqr c false v, updN_comm n hqr c true v]
    rfl

theorem applyGates_hlayer_sum (n : ℕ) :
    ∀ (L : List ℕ) (ψ : QState n) (v : Basis n),
      L.Nodup → (∀ q ∈ L, q < n + 1) →
      (∀ (q : ℕ), q ∈ L → ∀ (h : q < n + 1), v ⟨q, h⟩ = false) →
      applyGates n (L.map Gate.h) ψ v = sumOverN n L ψ v := by
  intro L
  induction L with
  | nil => intro ψ v _ _ _; rfl
  | cons q L ih =>
    intro ψ v hnd hrange hv
    have hq : q < n + 1 := hrange q (List.mem_cons_self _ _)
    have hqL : q ∉ L := (List.nodup_cons.mp hnd).1
    rw [List.map_cons, applyGates_cons]
    rw [ih (applyGate n (Gate.h q) ψ) v (List.nodup_cons.mp hnd).2
      (fun r hr => hrange r (List.mem_cons_of_mem _ hr))
      (fun r hr h => hv r (List.mem_cons_of_mem _ hr) h)]
    have hvq : v ⟨q, hq⟩ = false := hv q (List.mem_cons_self _ _) hq
    have hcong : ∀ w : Basis n, (∀ r : Fin (n + 1), r.val ∉ L → w r = v r) →
        applyGate n (Gate.h q) ψ w = ψ (updN n q false w) + ψ (updN n q true w) := by
      intro w hw
      have hwq : w ⟨q, hq⟩ = false := by
        rw [hw ⟨q, hq⟩ hqL, hvq]
      have hpt := congrFun (applyGate_h_eq n q hq ψ) w
      rw [hpt, hwq, updN_pos n q hq false w, updN_pos n q hq true w]
      rw [if_neg (by simp)]
      ring
    rw [sumOverN_congr n L (applyGate n (Gate.h q) ψ)
      (fun w => ψ (updN n q false w) + ψ (updN n q true w)) v hcong]
    rw [sumOverN_add n L (fun w => ψ (updN n q false w)) (fun w => ψ (updN n q true w)) v]
    rw [sumOverN_precomp n L q false ψ v hqL, sumOverN_precomp n L q true ψ v hqL]
    rfl

end DJSim

namespace DJSim

theorem sumOverN_eq_filter_sum (n : ℕ) :
    ∀ (L : List ℕ) (ψ : QState n) (v : Basis n),
      L.Nodup → (∀ q ∈ L, q < n + 1) →
      sumOverN n L ψ v =
        ∑ w ∈ Finset.univ.filter (fun w : Basis n =>
          ∀ q : Fin (n + 1), q.val ∉ L → w q = v q), ψ w := by
  intro L
  induction L with
  | nil =>
    intro ψ v _ _
    have hset : Finset.univ.filter (fun w : Basis n =>
        ∀ q : Fin (n + 1), q.val ∉ ([] : List ℕ) → w q = v q) = {v} := by
      ext w
      simp only [Finset.mem_filter, Finset.mem_univ, true_and, Finset.mem_singleton]
      constructor
      · intro h
        funext q
        exact h q (List.not_mem_nil q.val)
      · intro h q _
        rw [h]
    rw [hset, Finset.sum_singleton]
    rfl
  | cons q L ih =>
    intro ψ v hnd hrange
    have hq : q < n + 1 := hrange q (List.mem_cons_self _ _)
    have hqL : q ∉ L := (List.nodup_cons.mp hnd).1
    show sumOverN n L ψ (updN n q false v) + sumOverN n L ψ (updN n q true v) = _
    rw [ih ψ (updN n q false v) (List.nodup_cons.mp hnd).2
      (fun r hr => hrange r (List.mem_cons_of_mem _ hr)),
      ih ψ (updN n q true v) (List.nodup_cons.mp hnd).2
      (fun r hr => hrange r (List.mem_cons_of_mem _ hr))]
    have hsplit := Finset.sum_filter_add_sum_filter_not
      (Finset.univ.filter (fun w : Basis n =>
        ∀ r : Fin (n + 1), r.val ∉ (q :: L) → w r = v r))
      (fun w : Basis n => w ⟨q, hq⟩ = false) ψ
    have hpiece : ∀ c : Bool,
        (Finset.univ.filter (fun w : Basis n =>
          ∀ r : Fin (n + 1), r.val ∉ (q :: L) → w r = v r)).filter
            (fun w : Basis n => w ⟨q, hq⟩ = c) =
        Finset.univ.filter (fun w : Basis n =>
          ∀ r : Fin (n + 1), r.val ∉ L → w r = updN n q c v r) := by
      intro c
      ext w
      rw [Finset.mem_filter, Finset.mem_filter, Finset.mem_filter]
      simp only [Finset.mem_univ, true_and]
      constructor
      · rintro ⟨hall, hwq⟩ r hr
        by_cases hrq : r.val = q
        · have hreq : r = (⟨q, hq⟩ : Fin (n + 1)) := Fin.ext hrq
          rw [hreq, hwq, updN_pos n q hq, Function.update_same]
        · rw [hall r (fun hmem => by
            rcases List.mem_cons.mp hmem with h1 | h2
            · exact hrq h1
            · exact hr h2), updN_apply_ne n q c v r hrq]
      · intro hall
        constructor
        · intro r hr
          have hrL : r.val ∉ L := fun hmem => hr (List.mem_cons_of_mem _ hmem)
          have hrq : r.val ≠ q := fun he => hr (he ▸ List.mem_cons_self _ _)
          rw [hall r hrL, updN_apply_ne n q c v r hrq]
        · rw [hall ⟨q, hq⟩ hqL, updN_pos n q hq, Function.update_same]
    have hneg : (Finset.univ.filter (fun w : Basis n =>
        ∀ r : Fin (n + 1), r.val ∉ (q :: L) → w r = v r)).filter
          (fun w : Basis n => ¬ w ⟨q, hq⟩ = false) =
        (Finset.univ.filter (fun w : Basis n =>
          ∀ r : Fin (n + 1), r.val ∉ (q :: L) → w r = v r)).filter
            (fun w : Basis n => w ⟨q, hq⟩ = true) :=
      Finset.filter_congr (fun w _ => by cases w ⟨q, hq⟩ <;> simp)
    rw [← hsplit, hneg, hpiece false, hpiece true]

theorem snoc_bij (n : ℕ) :
    Function.Bijective (fun p : (Fin n → Bool) × Bool => (Fin.snoc p.1 p.2 : Basis n)) := by
  constructor
  · intro p p' hpp
    have hpp' : (Fin.snoc p.1 p.2 : Basis n) = (Fin.snoc p'.1 p'.2 : Basis n) := hpp
    have h1 : p.1 = p'.1 := by
      have hin := congrArg Fin.init hpp'
      rwa [Fin.init_snoc, Fin.init_snoc] at hin
    have h2 : p.2 = p'.2 := by
      have hla := congrFun hpp' (Fin.last n)
      rwa [Fin.snoc_last, Fin.snoc_last] at hla
    exact Prod.ext h1 h2
  · intro w
    exact ⟨(Fin.init w, w (Fin.last n)), Fin.snoc_init_self w⟩

theorem sumOverN_range_eval (n : ℕ) (ψ : QState n) (b : Bool) :
    sumOverN n (List.range n) ψ (Fin.snoc (fun _ => false) b) =
      ∑ x : Fin n → Bool, ψ (Fin.snoc x b) := by
  rw [sumOverN_eq_filter_sum n (List.range n) ψ _ (List.nodup_range n)
    (fun q hq => by have := List.mem_range.mp hq; omega)]
  have hset : Finset.univ.filter (fun w : Basis n =>
      ∀ q : Fin (n + 1), q.val ∉ List.range n →
        w q = (Fin.snoc (fun _ => false) b : Basis n) q) =
      Finset.univ.filter (fun w : Basis n => w (Fin.last n) = b) := by
    ext w
    simp only [Finset.mem_filter, Finset.mem_univ, true_and]
    constructor
    · intro h
      have hl := h (Fin.last n)
        (fun hmem => absurd (List.mem_range.mp hmem) (lt_irrefl n))
      rw [hl, Fin.snoc_last]
    · intro h q hq
      have hqv : q.val = n := by
        have h1 : ¬ q.val < n := fun hlt => hq (List.mem_range.mpr hlt)
        have h2 := q.isLt
        omega
      have hql : q = Fin.last n := Fin.ext hqv
      rw [hql, h, Fin.snoc_last]
  rw [hset, Finset.sum_filter]
  have hbij := Fintype.sum_bijective
    (fun p : (Fin n → Bool) × Bool => (Fin.snoc p.1 p.2 : Basis n)) (snoc_bij n)
    (fun p : (Fin n → Bool) × Bool =>
      if (Fin.snoc p.1 p.2 : Basis n) (Fin.last n) = b then ψ (Fin.snoc p.1 p.2) else 0)
    (fun w : Basis n => if w (Fin.last n) = b then ψ w else 0)
    (fun p => rfl)
  rw [← hbij, Fintype.sum_prod_type]
  have hinner : ∀ x : Fin n → Bool,
      (∑ c : Bool, if (Fin.snoc x c : Basis n) (Fin.last n) = b
        then ψ (Fin.snoc x c) else 0) = ψ (Fin.snoc x b) := by
    intro x
    have hcollapse : ∀ c : Bool, (if (Fin.snoc x c : Basis n) (Fin.last n) = b
        then ψ (Fin.snoc x c) else 0) = (if c = b then ψ (Fin.snoc x c) else 0) := by
      intro c
      rw [Fin.snoc_last]
    rw [Finset.sum_congr rfl (fun c _ => hcollapse c), Finset.sum_ite_eq' Finset.univ b
      (fun c => ψ (Fin.snoc x c)), if_pos (Finset.mem_univ b)]
  exact Finset.sum_congr rfl (fun x _ => hinner x)

end DJSim

namespace DJSim

theorem applyGate_smul (n : ℕ) (g : Gate) (c : ℤ) (ψ : QState n) :
    applyGate n g (fun v => c * ψ v) = fun v => c * applyGate n g ψ v := by
  cases g with
  | h q =>
    by_cases hq : q < n + 1
    · rw [applyGate_h_eq n q hq, applyGate_h_eq n q hq]
      funext v
      ring
    · simp [applyGate, natQ, hq]
  | x q => rfl
  | cx a t => rfl
  | mcx cs t => rfl
  | barrier => rfl

theorem applyGates_smul (n : ℕ) (gs : List Gate) (c : ℤ) (ψ : QState n) :
    applyGates n gs (fun v => c * ψ v) = fun v => c * applyGates n gs ψ v := by
  induction gs generalizing ψ with
  | nil => rfl
  | cons g gs ih =>
    rw [applyGates_cons, applyGates_cons, applyGate_smul, ih]

theorem applyH_applyH (n q : ℕ) (hq : q < n + 1) (ψ : QState n) (v : Basis n) :
    applyGate n (Gate.h q) (applyGate n (Gate.h q) ψ) v = 2 * ψ v := by
  have h1 := congrFun (applyGate_h_eq n q hq (applyGate n (Gate.h q) ψ)) v
  have h2 := congrFun (applyGate_h_eq n q hq ψ) (Function.update v ⟨q, hq⟩ false)
  have h3 := congrFun (applyGate_h_eq n q hq ψ) (Function.update v ⟨q, hq⟩ true)
  rw [h1, h2, h3, Function.update_idem, Function.update_idem, Function.update_idem,
    Function.update_idem, Function.update_same, Function.update_same]
  cases hv : v ⟨q, hq⟩ with
  | false =>
    have hu : Function.update v ⟨q, hq⟩ false = v := by
      conv_rhs => rw [← Function.update_eq_self (⟨q, hq⟩ : Fin (n + 1)) v]
      rw [hv]
    rw [hu]
    simp
    ring
  | true =>
    have hu : Function.update v ⟨q, hq⟩ true = v := by
      conv_rhs => rw [← Function.update_eq_self (⟨q, hq⟩ : Fin (n + 1)) v]
      rw [hv]
    rw [hu]
    simp
    ring

theorem applyGate_ne_zero (n : ℕ) {g : Gate} (hok : gateOk n g) {ψ : QState n}
    (hψ : ∃ v, ψ v ≠ 0) : ∃ v, applyGate n g ψ v ≠ 0 := by
  by_cases hcl : isClassicalGate g = true
  · obtain ⟨w, hw⟩ := hψ
    refine ⟨gateFun n g w, ?_⟩
    rw [congrFun (applyGate_classical n hcl ψ) (gateFun n g w),
      gateFun_invol n hok hcl w]
    exact hw
  · cases g with
    | h q =>
      have hq : q < n + 1 := hok
      by_contra hall
      push_neg at hall
      obtain ⟨w, hw⟩ := hψ
      apply hw
      have h2 := applyH_applyH n q hq ψ w
      have hzero : applyGate n (Gate.h q) ψ = fun _ => 0 := by
        funext u
        exact not_not.mp (by simpa using hall u)
      rw [hzero] at h2
      have h3 : applyGate n (Gate.h q) (fun _ => (0 : ℤ)) w = 0 := by
        rw [congrFun (applyGate_h_eq n q hq (fun _ => 0)) w]
        ring
      rw [h3] at h2
      omega
    | x q => simp [isClassicalGate] at hcl
    | cx a t => simp [isClassicalGate] at hcl
    | mcx cs t => simp [isClassicalGate] at hcl
    | barrier => simp [isClassicalGate] at hcl

theorem applyGates_ne_zero (n : ℕ) :
    ∀ (gs : List Gate), (∀ g ∈ gs, gateOk n g) →
      ∀ {ψ : QState n}, (∃ v, ψ v ≠ 0) → ∃ v, applyGates n gs ψ v ≠ 0 := by
  intro gs
  induction gs with
  | nil =>
    intro _ ψ h
    exact h
  | cons g gs ih =>
    intro hok ψ h
    exact ih (fun g' hg' => hok g' (List.mem_cons_of_mem _ hg'))
      (applyGate_ne_zero n (hok g (List.mem_cons_self _ _)) h)

theorem compile_dj_gates_ok (n : ℕ) (flip constant : Bool) (on_states : List ℕ) :
    ∀ g ∈ (compile_circuit (dj_function n flip constant on_states)).gates, gateOk n g := by
  intro g hg
  have hg' : g ∈ [Gate.x n] ++ (List.range (n + 1)).map Gate.h ++
      (dj_function n flip constant on_states).gates ++ (List.range n).map Gate.h := hg
  rcases List.mem_append.mp hg' with hg1 | hg2
  · rcases List.mem_append.mp hg1 with hg3 | hg4
    · rcases List.mem_append.mp hg3 with hg5 | hg6
      · rw [List.mem_singleton.mp hg5]
        exact trivial
      · obtain ⟨q, hqm, rfl⟩ := List.mem_map.mp hg6
        exact List.mem_range.mp hqm
    · exact (dj_function_classical_ok n flip constant on_states g hg4).2
  · obtain ⟨q, hqm, rfl⟩ := List.mem_map.mp hg2
    show q < n + 1
    have := List.mem_range.mp hqm
    omega

theorem initState_ne_zero (n : ℕ) : ∃ v : Basis n, initState n v ≠ 0 := by
  refine ⟨fun _ => false, ?_⟩
  unfold initState
  rw [if_pos rfl]
  norm_num

end DJSim

namespace DJSim

theorem prodState_lastvec (n : ℕ) (v : Basis n) :
    prodState n (fun q => if q = Fin.last n then (fun c => if c then (-1 : ℤ) else 1)
      else fun _ => (1 : ℤ)) v = if v (Fin.last n) then -1 else 1 := by
  rw [prodState_split n _ v (Fin.last n), if_pos rfl]
  have hone : ∏ q ∈ Finset.univ.erase (Fin.last n),
      (fun q : Fin (n + 1) => if q = Fin.last n then (fun c => if c then (-1 : ℤ) else 1)
        else fun _ => (1 : ℤ)) q (v q) = 1 :=
    Finset.prod_eq_one fun q hq => by simp [Finset.ne_of_mem_erase hq]
  rw [hone, mul_one]

theorem circuitAmp_compiled_dj (n : ℕ) (flip constant : Bool) (on_states : List ℕ)
    (hmem : ∀ s ∈ on_states, s < 2 ^ n) (hnd : on_states.Nodup) :
    circuitAmp n (compile_circuit (dj_function n flip constant on_states)).gates =
      applyGates n ((List.range n).map Gate.h)
        (fun v => if xor (v (Fin.last n))
          (oracleFun n flip constant on_states (Fin.init v)) then -1 else 1) := by
  show applyGates n ([Gate.x n] ++ (List.range (n + 1)).map Gate.h ++
    (dj_function n flip constant on_states).gates ++ (List.range n).map Gate.h)
    (initState n) = _
  rw [applyGates_append n ([Gate.x n] ++ (List.range (n + 1)).map Gate.h ++
    (dj_function n flip constant on_states).gates) ((List.range n).map Gate.h),
    applyGates_append n ([Gate.x n] ++ (List.range (n + 1)).map Gate.h)
    ((dj_function n flip constant on_states).gates)]
  rw [firstPart_eval n]
  rw [applyGates_classical n
    (fun g hg => (dj_function_classical_ok n flip constant on_states g hg).1) _]
  refine congrArg (applyGates n ((List.range n).map Gate.h)) ?_
  funext v
  show (if backComp n (dj_function n flip constant on_states).gates v (Fin.last n) = true
    then (-1 : ℤ) else 1) = _
  have hv : backComp n (dj_function n flip constant on_states).gates v =
      Fin.snoc (Fin.init v) (xor (v (Fin.last n))
        (oracleFun n flip constant on_states (Fin.init v))) := by
    conv_lhs => rw [← Fin.snoc_init_self v]
    rw [backComp_dj_function n flip constant on_states hmem hnd]
  rw [hv, Fin.snoc_last]

theorem circuitAmp_constant_eval (n : ℕ) (flip : Bool) (on_states : List ℕ)
    (m : Fin n → Bool) (b : Bool) :
    circuitAmp n (compile_circuit (dj_function n flip true on_states)).gates
      (Fin.snoc m b) =
      (if flip then (-1 : ℤ) else 1) *
        ((∏ i : Fin n, (if m i then (0 : ℤ) else 2)) * (if b then (-1 : ℤ) else 1)) := by
  rw [show dj_function n flip true on_states = dj_function n flip true [] from rfl]
  rw [circuitAmp_compiled_dj n flip true [] (by simp) List.nodup_nil]
  have hψ2 : (fun v : Basis n => if xor (v (Fin.last n))
      (oracleFun n flip true [] (Fin.init v)) then (-1 : ℤ) else 1) =
      fun v => (if flip then (-1 : ℤ) else 1) * (if v (Fin.last n) then -1 else 1) := by
    funext v
    have hor : oracleFun n flip true [] (Fin.init v) = flip := by
      unfold oracleFun
      cases flip <;> rfl
    rw [hor]
    cases hv : v (Fin.last n) <;> cases flip <;> norm_num
  rw [hψ2, applyGates_smul]
  have hψ1 : (fun v : Basis n => if v (Fin.last n) then (-1 : ℤ) else 1) =
      prodState n (fun q => if q = Fin.last n then (fun c => if c then (-1 : ℤ) else 1)
        else fun _ => (1 : ℤ)) := by
    funext v
    rw [prodState_lastvec n v]
  rw [hψ1, hLayer_prodState n _ n (by omega)]
  show (if flip then (-1 : ℤ) else 1) * prodState n _ (Fin.snoc m b) = _
  congr 1
  unfold prodState
  rw [Fin.prod_univ_castSucc]
  have hfactor : ∀ i : Fin n,
      (fun q : Fin (n + 1) => (if q.val < n then
        hTrans ((fun r : Fin (n + 1) => if r = Fin.last n then
          (fun c => if c then (-1 : ℤ) else 1) else fun _ => (1 : ℤ)) q)
        else (fun r : Fin (n + 1) => if r = Fin.last n then
          (fun c => if c then (-1 : ℤ) else 1) else fun _ => (1 : ℤ)) q)
        ((Fin.snoc m b : Basis n) q)) (Fin.castSucc i) = (if m i then (0 : ℤ) else 2) := by
    intro i
    show (if (Fin.castSucc i).val < n then
      hTrans (if Fin.castSucc i = Fin.last n then (fun c => if c then (-1 : ℤ) else 1)
        else fun _ => (1 : ℤ))
      else (if Fin.castSucc i = Fin.last n then (fun c => if c then (-1 : ℤ) else 1)
        else fun _ => (1 : ℤ))) ((Fin.snoc m b : Basis n) (Fin.castSucc i)) = _
    rw [if_pos (show (Fin.castSucc i).val < n by simp), if_neg (Fin.castSucc_lt_last i).ne,
      Fin.snoc_castSucc]
    unfold hTrans
    cases m i <;> norm_num
  have hlastf : (fun q : Fin (n + 1) => (if q.val < n then
      hTrans ((fun r : Fin (n + 1) => if r = Fin.last n then
        (fun c => if c then (-1 : ℤ) else 1) else fun _ => (1 : ℤ)) q)
      else (fun r : Fin (n + 1) => if r = Fin.last n then
        (fun c => if c then (-1 : ℤ) else 1) else fun _ => (1 : ℤ)) q)
      ((Fin.snoc m b : Basis n) q)) (Fin.last n) = (if b then (-1 : ℤ) else 1) := by
    show (if (Fin.last n).val < n then
      hTrans (if Fin.last n = Fin.last n then (fun c => if c then (-1 : ℤ) else 1)
        else fun _ => (1 : ℤ))
      else (if Fin.last n = Fin.last n then (fun c => if c then (-1 : ℤ) else 1)
        else fun _ => (1 : ℤ))) ((Fin.snoc m b : Basis n) (Fin.last n)) =
      (if b then (-1 : ℤ) else 1)
    rw [if_neg (by simp), if_pos rfl, Fin.snoc_last]
  rw [Finset.prod_congr rfl (fun i _ => hfactor i)]
  exact congrArg (fun z : ℤ =>
    (∏ i : Fin n, (if m i = true then (0 : ℤ) else 2)) * z) hlastf

theorem possible_constant (n : ℕ) (flip : Bool) (on_states : List ℕ) :
    (∀ m : Fin n → Bool,
      possibleOutcome n (compile_circuit (dj_function n flip true on_states)).gates m →
        m = fun _ => false) ∧
    possibleOutcome n (compile_circuit (dj_function n flip true on_states)).gates
      (fun _ => false) := by
  constructor
  · intro m hm
    obtain ⟨b, hb⟩ := hm
    by_contra hne
    apply hb
    rw [circuitAmp_constant_eval n flip on_states m b]
    have hex : ∃ i, m i = true := by
      by_contra hall
      push_neg at hall
      exact hne (funext fun i => Bool.eq_false_iff.mpr (hall i))
    obtain ⟨i, hi⟩ := hex
    rw [Finset.prod_eq_zero (Finset.mem_univ i) (by rw [hi]; rfl)]
    ring
  · refine ⟨false, ?_⟩
    rw [circuitAmp_constant_eval n flip on_states (fun _ => false) false]
    have hprod : (∏ _i : Fin n, (2 : ℤ)) = 2 ^ n := by
      simp [Finset.prod_const]
    have h2n : (2 : ℤ) ^ n ≠ 0 := by positivity
    cases flip <;> simp [hprod, h2n]

set_option maxHeartbeats 1000000 in
theorem circuitAmp_balanced_zero (n : ℕ) (hn : 1 ≤ n) (flip : Bool) (on_states : List ℕ)
    (hnd : on_states.Nodup) (hlen : on_states.length = 2 ^ n / 2)
    (hmem : ∀ s ∈ on_states, s < 2 ^ n) (b : Bool) :
    circuitAmp n (compile_circuit (dj_function n flip false on_states)).gates
      (Fin.snoc (fun _ => false) b) = 0 := by
  rw [circuitAmp_compiled_dj n flip false on_states hmem hnd]
  set ψ2 := fun v : Basis n => if xor (v (Fin.last n))
    (oracleFun n flip false on_states (Fin.init v)) then (-1 : ℤ) else 1 with hψ2
  have hvfalse : ∀ (q : ℕ) (hq : q ∈ List.range n) (h : q < n + 1),
      (Fin.snoc (fun _ => false) b : Basis n) ⟨q, h⟩ = false := by
    intro q hq h
    have hlt : q < n := List.mem_range.mp hq
    have hcast : (⟨q, h⟩ : Fin (n + 1)) = Fin.castSucc ⟨q, hlt⟩ := rfl
    rw [hcast, Fin.snoc_castSucc]
  rw [applyGates_hlayer_sum n (List.range n) ψ2 (Fin.snoc (fun _ => false) b)
    (List.nodup_range n) (fun q hq => by have := List.mem_range.mp hq; omega) hvfalse]
  rw [sumOverN_range_eval n ψ2 b]
  have hterm : ∀ x : Fin n → Bool, ψ2 (Fin.snoc x b) =
      (if b then (-1 : ℤ) else 1) *
        (if oracleFun n flip false on_states x = true then (-1 : ℤ) else 1) := by
    intro x
    rw [hψ2]
    beta_reduce
    rw [Fin.snoc_last, Fin.init_snoc]
    cases b <;> cases hfx : oracleFun n flip false on_states x <;> norm_num
  rw [Finset.sum_congr rfl (fun x _ => hterm x), ← Finset.mul_sum]
  have hcard := card_oracleFun_balanced n hn flip on_states hmem hnd hlen
  have hzero : (∑ x : Fin n → Bool,
      (if oracleFun n flip false on_states x = true then (-1 : ℤ) else 1)) = 0 := by
    rw [← Finset.sum_filter_add_sum_filter_not Finset.univ
      (fun x : Fin n → Bool => oracleFun n flip false on_states x = true)]
    rw [Finset.sum_congr rfl (fun x hx => if_pos (Finset.mem_filter.mp hx).2),
      Finset.sum_congr rfl (fun x hx => if_neg (Finset.mem_filter.mp hx).2)]
    rw [Finset.sum_const, Finset.sum_const]
    have hsplit := Finset.filter_card_add_filter_neg_card_eq_card
      (s := (Finset.univ : Finset (Fin n → Bool)))
      (fun x : Fin n → Bool => oracleFun n flip false on_states x = true)
    have hU := card_univ_fun_bool n
    have hpw := two_mul_half_pow n hn
    have hc2 : (Finset.univ.filter (fun x : Fin n → Bool =>
        ¬ oracleFun n flip false on_states x = true)).card = 2 ^ n / 2 := by omega
    rw [nsmul_eq_mul, nsmul_eq_mul, hcard, hc2]
    ring
  rw [hzero, mul_zero]

theorem possible_balanced (n : ℕ) (hn : 1 ≤ n) (flip : Bool) (on_states : List ℕ)
    (hnd : on_states.Nodup) (hlen : on_states.length = 2 ^ n / 2)
    (hmem : ∀ s ∈ on_states, s < 2 ^ n) :
    (∀ m : Fin n → Bool,
      possibleOutcome n (compile_circuit (dj_function n flip false on_states)).gates m →
        ∃ i, m i = true) ∧
    ∃ m, possibleOutcome n
      (compile_circuit (dj_function n flip false on_states)).gates m := by
  have hzero := circuitAmp_balanced_zero n hn flip on_states hnd hlen hmem
  constructor
  · intro m hm
    obtain ⟨b, hb⟩ := hm
    by_contra hall
    push_neg at hall
    have hmz : m = fun _ => false := funext fun i => Bool.eq_false_iff.mpr (hall i)
    rw [hmz] at hb
    exact hb (hzero b)
  · have hex := applyGates_ne_zero n
      (compile_circuit (dj_function n flip false on_states)).gates
      (compile_dj_gates_ok n flip false on_states) (initState_ne_zero n)
    obtain ⟨v, hv⟩ := hex
    refine ⟨Fin.init v, v (Fin.last n), ?_⟩
    show circuitAmp n (compile_circuit (dj_function n flip false on_states)).gates
      (Fin.snoc (Fin.init v) (v (Fin.last n))) ≠ 0
    rw [Fin.snoc_init_self v]
    exact hv

end DJSim

namespace DJSim

theorem dj_algorithm_decision_eq (n : ℕ) (m : Fin n → Bool) :
    dj_algorithm_decision n m = if ∃ i, m i = true then "balanced" else "constant" := by
  unfold dj_algorithm_decision
  by_cases hex : ∃ i, m i = true
  · obtain ⟨i, hi⟩ := hex
    have hm : '1' ∈ (List.finRange n).reverse.map (fun i => if m i then '1' else '0') := by
      rw [List.mem_map]
      refine ⟨i, ?_, ?_⟩
      · rw [List.mem_reverse]
        exact List.mem_finRange i
      · rw [hi]
        rfl
    rw [if_pos hm, if_pos ⟨i, hi⟩]
  · have hm : '1' ∉ (List.finRange n).reverse.map (fun i => if m i then '1' else '0') := by
      intro hmem
      obtain ⟨i, _, hival⟩ := List.mem_map.mp hmem
      apply hex
      refine ⟨i, ?_⟩
      by_contra hne
      rw [Bool.not_eq_true] at hne
      rw [hne] at hival
      exact absurd hival (by decide)
    rw [if_neg hm, if_neg hex]

/-- C1: for every n >= 1 and every oracle produced by dj_function (any
global-flip draw, any class draw, any admissible on-state sample), the
quantum decision procedure answers with certainty: every readout string the
backend can sample with nonzero probability from the compiled circuit maps
to the verdict of the oracle's class ("constant" exactly when the sampled
string is all-zero), and at least one readout string is sampleable, so a
single shot decides the class with probability 1. -/
theorem dj_algorithm_matches_oracle_class (n : ℕ) (hn : 1 ≤ n) (flip constant : Bool)
    (on_states : List ℕ) (hnd : on_states.Nodup)
    (hlen : on_states.length = 2 ^ n / 2) (hmem : ∀ s ∈ on_states, s < 2 ^ n) :
    (∀ m : Fin n → Bool,
      possibleOutcome n (compile_circuit (dj_function n flip constant on_states)).gates m →
        dj_algorithm_decision n m = (if constant then "constant" else "balanced")) ∧
    ∃ m : Fin n → Bool,
      possibleOutcome n (compile_circuit (dj_function n flip constant on_states)).gates m := by
  by_cases hc : constant = true
  · subst hc
    obtain ⟨huniq, hposs⟩ := possible_constant n flip on_states
    constructor
    · intro m hm
      have hnone : ¬ ∃ i : Fin n, (fun _ => false : Fin n → Bool) i = true := by
        rintro ⟨i, hi⟩
        exact absurd hi (by simp)
      rw [huniq m hm, dj_algorithm_decision_eq, if_neg hnone, if_pos rfl]
    · exact ⟨fun _ => false, hposs⟩
  · have hc' : constant = false := by revert hc; cases constant <;> simp
    subst hc'
    obtain ⟨hone, hposs⟩ := possible_balanced n hn flip on_states hnd hlen hmem
    constructor
    · intro m hm
      rw [dj_algorithm_decision_eq, if_pos (hone m hm)]
      rfl
    · exact hposs

theorem dj_algorithm_matches_oracle_class_witness :
    (1 ≤ 1 ∧ ([0] : List ℕ).Nodup ∧ ([0] : List ℕ).length = 2 ^ 1 / 2 ∧
      (∀ s ∈ ([0] : List ℕ), s < 2 ^ 1)) ∧
    ((∀ m : Fin 1 → Bool,
      possibleOutcome 1 (compile_circuit (dj_function 1 false true [0])).gates m →
        dj_algorithm_decision 1 m = (if true then "constant" else "balanced")) ∧
    ∃ m : Fin 1 → Bool,
      possibleOutcome 1 (compile_circuit (dj_function 1 false true [0])).gates m) :=
  ⟨⟨le_rfl, by decide, by decide, by decide⟩,
    dj_algorithm_matches_oracle_class 1 le_rfl false true [0] (by decide) (by decide)
      (by decide)⟩

/-- C9: the quantum decision procedure is deterministic per oracle: for a
fixed generated oracle, any two single-shot samples the backend can return
lead dj_algorithm to the same verdict. -/
theorem dj_algorithm_deterministic_per_oracle (n : ℕ) (hn : 1 ≤ n)
    (flip constant : Bool) (on_states : List ℕ) (hnd : on_states.Nodup)
    (hlen : on_states.length = 2 ^ n / 2) (hmem : ∀ s ∈ on_states, s < 2 ^ n)
    (m₁ m₂ : Fin n → Bool)
    (h₁ : possibleOutcome n
      (compile_circuit (dj_function n flip constant on_states)).gates m₁)
    (h₂ : possibleOutcome n
      (compile_circuit (dj_function n flip constant on_states)).gates m₂) :
    dj_algorithm_decision n m₁ = dj_algorithm_decision n m₂ := by
  by_cases hc : constant = true
  · subst hc
    obtain ⟨huniq, _⟩ := possible_constant n flip on_states
    rw [huniq m₁ h₁, huniq m₂ h₂]
  · have hc' : constant = false := by revert hc; cases constant <;> simp
    subst hc'
    obtain ⟨hone, _⟩ := possible_balanced n hn flip on_states hnd hlen hmem
    rw [dj_algorithm_decision_eq, dj_algorithm_decision_eq, if_pos (hone m₁ h₁),
      if_pos (hone m₂ h₂)]

theorem dj_algorithm_deterministic_per_oracle_witness :
    (1 ≤ 1 ∧ ([0] : List ℕ).Nodup ∧ ([0] : List ℕ).length = 2 ^ 1 / 2 ∧
      (∀ s ∈ ([0] : List ℕ), s < 2 ^ 1) ∧
      possibleOutcome 1 (compile_circuit (dj_function 1 false true [0])).gates
        (fun _ => false) ∧
      possibleOutcome 1 (compile_circuit (dj_function 1 false true [0])).gates
        (fun _ => false)) ∧
    dj_algorithm_decision 1 (fun _ => false) = dj_algorithm_decision 1 (fun _ => false) :=
  ⟨⟨le_rfl, by decide, by decide, by decide, by decide, by decide⟩,
    dj_algorithm_deterministic_per_oracle 1 le_rfl false true [0] (by decide) (by decide)
      (by decide) (fun _ => false) (fun _ => false) (by decide) (by decide)⟩

end DJSim
